import Mathlib

/-!
# Verification of the gds container library

This file embeds the parts of the `gds` container library that the
specification's testable properties talk about:

* the ordered map (`maps/treemap`), a facade over a red-black tree engine.
  The facade (`Put`/`Get`/`Remove`/`Size`/`Keys`/`Values`/`Min`/`Max`/
  `Floor`/`Ceiling`) is translated from `maps/treemap/treemap.go`.
  The tree engine itself (package `trees/redblacktree`, imported as `rbt`
  by the facade) is not part of the available sources, so it is modelled
  from the specification (data model §3, component design §4.1): a binary
  search tree with red/black colored nodes, insertion of a red leaf
  followed by a rebalancing fixup with the root forced black, removal by
  splicing with a double-black rebalancing fixup, and silent no-op removal
  of absent keys.  The model is purely functional: parent back-references
  (spec §3, non-owning links used only for upward navigation) are replaced
  by structural recursion, and the imperative rotate/recolor fixup loops
  are rendered as local rebalancing functions on subtrees.
* the insertion-ordered hash map (`maps/linkedhashmap`), whose `Get` is
  translated from the source.
* the array-backed list (`lists/arraylist`), whose `Add`/`Contains` and
  the capacity-growing helpers are translated from the source.

The Go comparator contract (spec §6: a pure strict total order
`(K, K) → {less, equal, greater}`) is rendered as a `LinearOrder` on the
key type; every comparator call `cmp k k'` in the code becomes the pair of
decidable tests `k < k'` / `k' < k` (negative / positive result), with the
residual case being equality.  Go `interface{}` values that may be `nil`
are modelled as `Option` values (`none` = `nil`).
-/

namespace rbt

/-- Modelled from the spec (§3 data model): the color bit of a tree node. -/
inductive Color : Type where
  | red : Color
  | black : Color
deriving DecidableEq, Repr

open Color

/-- Modelled from the spec (§3 data model, package `trees/redblacktree`
missing from the sources): a tree vertex holding a key, a value, a color
bit and the two owned children.  The non-owning parent back-reference of
the imperative source is dropped; it only supports upward navigation,
which structural recursion replaces. -/
inductive Node (α β : Type) : Type where
  | nil : Node α β
  | node (color : Color) (left : Node α β) (key : α) (value : β) (right : Node α β) : Node α β
deriving DecidableEq, Repr

namespace Node

variable {α β : Type}

/-- Number of live nodes in a subtree. -/
@[simp] def size : Node α β → Nat
  | nil => 0
  | node _ l _ _ r => l.size + r.size + 1

/-- In-order traversal of the tree as a key/value list (spec glossary:
visiting nodes in ascending key order — left subtree, node, right
subtree). -/
@[simp] def toList : Node α β → List (α × β)
  | nil => []
  | node _ l k v r => l.toList ++ (k, v) :: r.toList

/-- In-order key sequence of a subtree. -/
def keys (t : Node α β) : List α := t.toList.map Prod.fst

/-- Predicate transformer: `All p t` states that every key/value pair of
`t` satisfies `p`. -/
@[simp] def All (p : α → β → Prop) : Node α β → Prop
  | nil => True
  | node _ l k v r => p k v ∧ All p l ∧ All p r

/-- Modelled from the spec (§4.1 InsertFixup, left half): repair of a
red-red violation in the left child of a black node.  The inner-child
(zig-zag) and outer-child cases both restructure to a red node with two
black children; any other shape is left in place under a black root. -/
def balance1 : Node α β → α → β → Node α β → Node α β
  | node red (node red a kx vx b) ky vy c, kz, vz, d =>
      node red (node black a kx vx b) ky vy (node black c kz vz d)
  | node red a kx vx (node red b ky vy c), kz, vz, d =>
      node red (node black a kx vx b) ky vy (node black c kz vz d)
  | a, kx, vx, b => node black a kx vx b

/-- Modelled from the spec (§4.1 InsertFixup, right half): mirror image of
`balance1` for a red-red violation in the right child. -/
def balance2 : Node α β → α → β → Node α β → Node α β
  | a, kx, vx, node red b ky vy (node red c kz vz d) =>
      node red (node black a kx vx b) ky vy (node black c kz vz d)
  | a, kx, vx, node red (node red b ky vy c) kz vz d =>
      node red (node black a kx vx b) ky vy (node black c kz vz d)
  | a, kx, vx, b => node black a kx vx b

/-- Recolors the root black (spec §4.1: "Root is always forced Black as
the final step"). -/
def setBlack : Node α β → Node α β
  | nil => nil
  | node _ l k v r => node black l k v r

/-- Recolors the root red; used by the deletion fixup when a deficiency is
pushed into a sibling subtree. -/
def setRed : Node α β → Node α β
  | nil => nil
  | node _ l k v r => node red l k v r

/-- Modelled from the spec (§4.1 DeleteFixup): rebalancing after the left
subtree lost one unit of black height.  The cases follow the spec's case
analysis on the sibling's color and the sibling's children: a red
ex-sibling is recolored, a black sibling absorbs the deficiency through
`balance2`, and a red sibling with a black child is rotated first. -/
def balLeft (l : Node α β) (k : α) (v : β) (r : Node α β) : Node α β :=
  match l with
  | node red a kx vx b => node red (node black a kx vx b) k v r
  | l =>
    match r with
    | node black a ky vy b => balance2 l k v (node red a ky vy b)
    | node red (node black a ky vy b) kz vz c =>
        node red (node black l k v a) ky vy (balance2 b kz vz c.setRed)
    | r => node red l k v r

/-- Modelled from the spec (§4.1 DeleteFixup): mirror image of `balLeft`
for a right subtree that lost one unit of black height. -/
def balRight (l : Node α β) (k : α) (v : β) (r : Node α β) : Node α β :=
  match r with
  | node red b ky vy c => node red l k v (node black b ky vy c)
  | r =>
    match l with
    | node black a kx vx b => balance1 (node red a kx vx b) k v r
    | node red a kx vx (node black b ky vy c) =>
        node red (balance1 a.setRed kx vx b) ky vy (node black c k v r)
    | l => node red l k v r

/-- Modelled from the spec (§4.1 Remove): joining the two subtrees of a
removed node — the functional rendering of "copy the in-order successor up
and splice out the successor node".  Both arguments have the same black
height; the join keeps the in-order sequence and reports the spliced
subtrees to the deletion fixup. -/
def glue : Node α β → Node α β → Node α β
  | nil, t => t
  | t, nil => t
  | node red a kx vx b, node red c ky vy d =>
    match glue b c with
    | node red b' kz vz c' => node red (node red a kx vx b') kz vz (node red c' ky vy d)
    | bc => node red a kx vx (node red bc ky vy d)
  | node black a kx vx b, node black c ky vy d =>
    match glue b c with
    | node red b' kz vz c' => node red (node black a kx vx b') kz vz (node black c' ky vy d)
    | bc => balLeft a kx vx (node black bc ky vy d)
  | a@(node black _ _ _ _), node red b kx vx c => node red (glue a b) kx vx c
  | node red a kx vx b, c@(node black _ _ _ _) => node red a kx vx (glue b c)
termination_by l r => l.size + r.size

/-- Modelled from the spec (§4.1 Min): walk left children from the root to
the end. -/
def leftmost? : Node α β → Option (α × β)
  | nil => none
  | node _ nil k v _ => some (k, v)
  | node _ l@(node _ _ _ _ _) _ _ _ => leftmost? l

/-- Modelled from the spec (§4.1 Max): walk right children from the root
to the end. -/
def rightmost? : Node α β → Option (α × β)
  | nil => none
  | node _ _ k v nil => some (k, v)
  | node _ _ _ _ r@(node _ _ _ _ _) => rightmost? r

/-! ## In-order traversal of the rebalancing operations

Every rebalancing primitive of the engine preserves the in-order
key/value sequence (spec §4.1: each rotation "exchanges a node with one
child while preserving in-order sequence"). -/

@[simp] theorem toList_balance1 (l : Node α β) (k : α) (v : β) (r : Node α β) :
    (balance1 l k v r).toList = l.toList ++ (k, v) :: r.toList := by
  unfold balance1; split <;> simp

@[simp] theorem toList_balance2 (l : Node α β) (k : α) (v : β) (r : Node α β) :
    (balance2 l k v r).toList = l.toList ++ (k, v) :: r.toList := by
  unfold balance2; split <;> simp

@[simp] theorem toList_setBlack (t : Node α β) : t.setBlack.toList = t.toList := by
  cases t <;> simp [setBlack]

@[simp] theorem toList_setRed (t : Node α β) : t.setRed.toList = t.toList := by
  cases t <;> simp [setRed]

@[simp] theorem toList_balLeft (l : Node α β) (k : α) (v : β) (r : Node α β) :
    (balLeft l k v r).toList = l.toList ++ (k, v) :: r.toList := by
  unfold balLeft; split
  · simp
  · split <;> simp

@[simp] theorem toList_balRight (l : Node α β) (k : α) (v : β) (r : Node α β) :
    (balRight l k v r).toList = l.toList ++ (k, v) :: r.toList := by
  unfold balRight; split
  · simp
  · split <;> simp

theorem toList_glue (l r : Node α β) : (glue l r).toList = l.toList ++ r.toList := by
  unfold glue; split
  · simp
  · simp
  · rename_i a kx vx b c ky vy d
    have ih := toList_glue b c
    split
    · next b' kz vz c' h =>
      rw [h] at ih
      calc (node red (node red a kx vx b') kz vz (node red c' ky vy d)).toList
          = a.toList ++ (kx, vx) :: ((node red b' kz vz c').toList ++ (ky, vy) :: d.toList) := by
            simp
        _ = a.toList ++ (kx, vx) :: ((b.toList ++ c.toList) ++ (ky, vy) :: d.toList) := by
            rw [ih]
        _ = (node red a kx vx b).toList ++ (node red c ky vy d).toList := by simp
    · next h =>
      calc (node red a kx vx (node red (b.glue c) ky vy d)).toList
          = a.toList ++ (kx, vx) :: ((b.glue c).toList ++ (ky, vy) :: d.toList) := by simp
        _ = a.toList ++ (kx, vx) :: ((b.toList ++ c.toList) ++ (ky, vy) :: d.toList) := by
            rw [ih]
        _ = (node red a kx vx b).toList ++ (node red c ky vy d).toList := by simp
  · rename_i a kx vx b c ky vy d
    have ih := toList_glue b c
    split
    · next b' kz vz c' h =>
      rw [h] at ih
      calc (node red (node black a kx vx b') kz vz (node black c' ky vy d)).toList
          = a.toList ++ (kx, vx) :: ((node red b' kz vz c').toList ++ (ky, vy) :: d.toList) := by
            simp
        _ = a.toList ++ (kx, vx) :: ((b.toList ++ c.toList) ++ (ky, vy) :: d.toList) := by
            rw [ih]
        _ = (node black a kx vx b).toList ++ (node black c ky vy d).toList := by simp
    · next h =>
      calc (balLeft a kx vx (node black (b.glue c) ky vy d)).toList
          = a.toList ++ (kx, vx) :: ((b.glue c).toList ++ (ky, vy) :: d.toList) := by simp
        _ = a.toList ++ (kx, vx) :: ((b.toList ++ c.toList) ++ (ky, vy) :: d.toList) := by
            rw [ih]
        _ = (node black a kx vx b).toList ++ (node black c ky vy d).toList := by simp
  · rename_i l1 k1 v1 r1 b kx vx c
    have ih := toList_glue (node black l1 k1 v1 r1) b
    calc (node red ((node black l1 k1 v1 r1).glue b) kx vx c).toList
        = ((node black l1 k1 v1 r1).glue b).toList ++ (kx, vx) :: c.toList := by simp
      _ = ((node black l1 k1 v1 r1).toList ++ b.toList) ++ (kx, vx) :: c.toList := by rw [ih]
      _ = (node black l1 k1 v1 r1).toList ++ (node red b kx vx c).toList := by simp
  · rename_i a kx vx b l1 k1 v1 r1
    have ih := toList_glue b (node black l1 k1 v1 r1)
    calc (node red a kx vx (b.glue (node black l1 k1 v1 r1))).toList
        = a.toList ++ (kx, vx) :: (b.glue (node black l1 k1 v1 r1)).toList := by simp
      _ = a.toList ++ (kx, vx) :: (b.toList ++ (node black l1 k1 v1 r1).toList) := by rw [ih]
      _ = (node red a kx vx b).toList ++ (node black l1 k1 v1 r1).toList := by simp
termination_by l.size + r.size

section OrderedOps

variable [LinearOrder α]

/-- Modelled from the spec (§3 invariant 1): binary-search-tree order —
for every node, all keys in the left subtree compare less than the node's
key under the comparator, all keys in the right subtree compare
greater. -/
@[simp] def Ordered : Node α β → Prop
  | nil => True
  | node _ l k _ r =>
      All (fun k' _ => k' < k) l ∧ All (fun k' _ => k < k') r ∧ Ordered l ∧ Ordered r

/-- Modelled from the spec (§4.1 Search): standard descending comparator
walk; returns the stored value, or `none` if the key is absent. -/
def search (k : α) : Node α β → Option β
  | nil => none
  | node _ l k' v r =>
      if k < k' then search k l
      else if k' < k then search k r
      else some v

/-- Modelled from the spec (§4.1 Put): locate the insertion point by
repeated comparator calls descending from the root; a tie replaces the
value of the existing node with no structural change, otherwise the new
pair is inserted as a red leaf and the red-black repair is applied on the
way back up (at black ancestors). -/
def ins (k : α) (v : β) : Node α β → Node α β
  | nil => node red nil k v nil
  | node red l k' v' r =>
      if k < k' then node red (ins k v l) k' v' r
      else if k' < k then node red l k' v' (ins k v r)
      else node red l k' v r
  | node black l k' v' r =>
      if k < k' then balance1 (ins k v l) k' v' r
      else if k' < k then balance2 l k' v' (ins k v r)
      else node black l k' v r

/-- Modelled from the spec (§4.1 Put): the complete insertion — `ins`
followed by forcing the root black. -/
def put (k : α) (v : β) (t : Node α β) : Node α β := (ins k v t).setBlack

/-- Modelled from the spec (§4.1 Remove): locate the node by a descending
comparator walk and splice it out; when the removal happened below a black
child the double-black deficiency is repaired by `balLeft`/`balRight`. -/
def del (k : α) : Node α β → Node α β
  | nil => nil
  | node _ l k' v r =>
      if k < k' then
        match l with
        | node black _ _ _ _ => balLeft (del k l) k' v r
        | _ => node red (del k l) k' v r
      else if k' < k then
        match r with
        | node black _ _ _ _ => balRight l k' v (del k r)
        | _ => node red l k' v (del k r)
      else glue l r

/-- Modelled from the spec (§4.1 Remove): the complete removal of a
present key — `del` followed by forcing the root black. -/
def remove (k : α) (t : Node α β) : Node α β := (del k t).setBlack

/-- Modelled from the spec (§4.1 Floor): descend comparing; each time the
current node's key is greater than the target go left, each time it is
less than or equal record the node as best-candidate-so-far and go right;
return the last recorded candidate, or "not found" if none. -/
def floor? (k : α) : Node α β → Option (α × β)
  | nil => none
  | node _ l k' v r =>
      if k < k' then floor? k l
      else
        match floor? k r with
        | some p => some p
        | none => some (k', v)

/-- Modelled from the spec (§4.1 Ceiling): mirror image of `floor?` —
track nodes whose key is greater than or equal to the target, descending
left on those and right otherwise. -/
def ceiling? (k : α) : Node α β → Option (α × β)
  | nil => none
  | node _ l k' v r =>
      if k' < k then ceiling? k r
      else
        match ceiling? k l with
        | some p => some p
        | none => some (k', v)

end OrderedOps

end Node

end rbt

/-! ## The sorted-association-list reference model

The spec's testable properties (§8) ask the tree to agree with "a
reference sorted-association-list model".  These are the reference
operations on a strictly-sorted list of key/value pairs. -/

namespace AssocModel

variable {α β : Type} [LinearOrder α]

/-- Reference insertion into a sorted association list: place the new pair
before the first larger key, or replace the value at an equal key in
place. -/
def listPut (k : α) (v : β) : List (α × β) → List (α × β)
  | [] => [(k, v)]
  | (k', v') :: xs =>
      if k < k' then (k, v) :: (k', v') :: xs
      else if k' < k then (k', v') :: listPut k v xs
      else (k', v) :: xs

/-- Reference removal from a sorted association list: drop the pair with
an equal key, leaving the list unchanged when the key is absent. -/
def listErase (k : α) : List (α × β) → List (α × β)
  | [] => []
  | (k', v') :: xs =>
      if k < k' then (k', v') :: xs
      else if k' < k then (k', v') :: listErase k xs
      else xs

/-- Reference lookup: the value at the first pair with an equal key. -/
def listLookup (k : α) : List (α × β) → Option β
  | [] => none
  | (k', v') :: xs => if k = k' then some v' else listLookup k xs

/-- Strict sortedness of an association list by its keys. -/
def KSorted (xs : List (α × β)) : Prop :=
  List.Pairwise (fun p q => p.1 < q.1) xs

theorem listPut_append_right {k : α} {v : β} {xs ys : List (α × β)}
    (h : ∀ p ∈ ys, k < p.1) : listPut k v (xs ++ ys) = listPut k v xs ++ ys := by
  induction xs with
  | nil =>
    cases ys with
    | nil => simp [listPut]
    | cons p ys =>
      have := h p (by simp)
      simp [listPut, this]
  | cons p xs ih =>
    by_cases h1 : k < p.1
    · simp [listPut, h1]
    · by_cases h2 : p.1 < k
      · simp [listPut, h1, h2, ih]
      · simp [listPut, h1, h2]

theorem listPut_append_left {k : α} {v : β} {xs ys : List (α × β)}
    (h : ∀ p ∈ xs, p.1 < k) : listPut k v (xs ++ ys) = xs ++ listPut k v ys := by
  induction xs with
  | nil => simp
  | cons p xs ih =>
    have hp := h p (by simp)
    have h1 : ¬k < p.1 := not_lt.2 hp.le
    simp [listPut, h1, hp]
    exact ih fun q hq => h q (by simp [hq])

theorem listErase_append_right {k : α} {xs ys : List (α × β)}
    (h : ∀ p ∈ ys, k < p.1) : listErase k (xs ++ ys) = listErase k xs ++ ys := by
  induction xs with
  | nil =>
    cases ys with
    | nil => simp [listErase]
    | cons p ys =>
      have := h p (by simp)
      simp [listErase, this]
  | cons p xs ih =>
    by_cases h1 : k < p.1
    · simp [listErase, h1]
    · by_cases h2 : p.1 < k
      · simp [listErase, h1, h2, ih]
      · simp [listErase, h1, h2]

theorem listErase_append_left {k : α} {xs ys : List (α × β)}
    (h : ∀ p ∈ xs, p.1 < k) : listErase k (xs ++ ys) = xs ++ listErase k ys := by
  induction xs with
  | nil => simp
  | cons p xs ih =>
    have hp := h p (by simp)
    have h1 : ¬k < p.1 := not_lt.2 hp.le
    simp [listErase, h1, hp]
    exact ih fun q hq => h q (by simp [hq])

theorem listLookup_append (k : α) (xs ys : List (α × β)) :
    listLookup k (xs ++ ys) =
      match listLookup k xs with
      | some v => some v
      | none => listLookup k ys := by
  induction xs with
  | nil => simp [listLookup]
  | cons p xs ih =>
    by_cases h : k = p.1
    · simp [listLookup, h]
    · simp [listLookup, h, ih]

theorem listLookup_eq_none {k : α} {xs : List (α × β)}
    (h : ∀ p ∈ xs, p.1 ≠ k) : listLookup k xs = none := by
  induction xs with
  | nil => rfl
  | cons p xs ih =>
    have hp : k ≠ p.1 := fun e => h p (by simp) e.symm
    simp [listLookup, hp]
    exact ih fun q hq => h q (by simp [hq])

omit [LinearOrder α] in
theorem fst_mem_of_mem {xs : List (α × β)} {p : α × β} (h : p ∈ xs) :
    p.1 ∈ xs.map Prod.fst :=
  List.mem_map_of_mem Prod.fst h

theorem listPut_cons_lt (k : α) (v : β) (q : α × β) (xs : List (α × β))
    (h : k < q.1) : listPut k v (q :: xs) = (k, v) :: q :: xs := by
  simp [listPut, h]

theorem listPut_cons_gt (k : α) (v : β) (q : α × β) (xs : List (α × β))
    (h : q.1 < k) : listPut k v (q :: xs) = q :: listPut k v xs := by
  simp [listPut, h, lt_asymm h]

theorem listPut_cons_eq (k : α) (v : β) (q : α × β) (xs : List (α × β))
    (h1 : ¬k < q.1) (h2 : ¬q.1 < k) : listPut k v (q :: xs) = (q.1, v) :: xs := by
  simp [listPut, h1, h2]

theorem listErase_cons_lt (k : α) (q : α × β) (xs : List (α × β))
    (h : k < q.1) : listErase k (q :: xs) = q :: xs := by
  simp [listErase, h]

theorem listErase_cons_gt (k : α) (q : α × β) (xs : List (α × β))
    (h : q.1 < k) : listErase k (q :: xs) = q :: listErase k xs := by
  simp [listErase, h, lt_asymm h]

theorem listErase_cons_eq (k : α) (q : α × β) (xs : List (α × β))
    (h1 : ¬k < q.1) (h2 : ¬q.1 < k) : listErase k (q :: xs) = xs := by
  simp [listErase, h1, h2]

theorem mem_listPut {k : α} {v : β} {xs : List (α × β)} {p : α × β}
    (h : p ∈ listPut k v xs) : p.1 = k ∨ p.1 ∈ xs.map Prod.fst := by
  induction xs with
  | nil =>
    simp only [listPut, List.mem_singleton] at h
    subst h; exact Or.inl rfl
  | cons q xs ih =>
    rcases lt_trichotomy k q.1 with h1 | h1 | h1
    · rw [listPut_cons_lt k v q xs h1] at h
      rcases List.mem_cons.1 h with rfl | h
      · exact Or.inl rfl
      · exact Or.inr (fst_mem_of_mem h)
    · rw [listPut_cons_eq k v q xs (by rw [h1]; exact lt_irrefl q.1) (by rw [h1]; exact lt_irrefl q.1)] at h
      rcases List.mem_cons.1 h with rfl | h
      · exact Or.inr (by simp)
      · exact Or.inr (fst_mem_of_mem (List.mem_cons_of_mem q h))
    · rw [listPut_cons_gt k v q xs h1] at h
      rcases List.mem_cons.1 h with rfl | h
      · exact Or.inr (by simp)
      · rcases ih h with h3 | h3
        · exact Or.inl h3
        · exact Or.inr (by simp [h3])

theorem ksorted_listPut {k : α} {v : β} {xs : List (α × β)}
    (h : KSorted xs) : KSorted (listPut k v xs) := by
  induction xs with
  | nil => simp [listPut, KSorted]
  | cons q xs ih =>
    obtain ⟨hq, hxs⟩ := List.pairwise_cons.1 h
    rcases lt_trichotomy k q.1 with h1 | h1 | h1
    · rw [listPut_cons_lt k v q xs h1]
      refine List.pairwise_cons.2 ⟨?_, h⟩
      intro p hp
      rcases List.mem_cons.1 hp with rfl | hp
      · exact h1
      · exact h1.trans (hq p hp)
    · rw [listPut_cons_eq k v q xs (by rw [h1]; exact lt_irrefl q.1) (by rw [h1]; exact lt_irrefl q.1)]
      exact List.pairwise_cons.2 ⟨fun p hp => hq p hp, hxs⟩
    · rw [listPut_cons_gt k v q xs h1]
      refine List.pairwise_cons.2 ⟨?_, ih hxs⟩
      intro p hp
      rcases mem_listPut hp with h3 | h3
      · rw [h3]; exact h1
      · obtain ⟨q', hq', h4⟩ := List.mem_map.1 h3
        rw [← h4]; exact hq q' hq'

theorem listErase_sublist (k : α) (xs : List (α × β)) : List.Sublist (listErase k xs) xs := by
  induction xs with
  | nil => simp [listErase]
  | cons q xs ih =>
    rcases lt_trichotomy k q.1 with h1 | h1 | h1
    · rw [listErase_cons_lt k q xs h1]
    · rw [listErase_cons_eq k q xs (by rw [h1]; exact lt_irrefl q.1) (by rw [h1]; exact lt_irrefl q.1)]
      exact (List.Sublist.refl xs).cons q
    · rw [listErase_cons_gt k q xs h1]
      exact ih.cons₂ q

theorem ksorted_listErase {k : α} {xs : List (α × β)}
    (h : KSorted xs) : KSorted (listErase k xs) :=
  List.Pairwise.sublist (listErase_sublist k xs) h

theorem listLookup_listPut_self (k : α) (v : β) (xs : List (α × β)) :
    listLookup k (listPut k v xs) = some v := by
  induction xs with
  | nil => simp [listPut, listLookup]
  | cons q xs ih =>
    rcases lt_trichotomy k q.1 with h1 | h1 | h1
    · rw [listPut_cons_lt k v q xs h1]
      simp [listLookup]
    · rw [listPut_cons_eq k v q xs (by rw [h1]; exact lt_irrefl q.1) (by rw [h1]; exact lt_irrefl q.1)]
      simp [listLookup, h1]
    · rw [listPut_cons_gt k v q xs h1]
      have hne : k ≠ q.1 := ne_of_gt h1
      simp [listLookup, hne, ih]

theorem listLookup_listErase_self {k : α} {xs : List (α × β)}
    (h : KSorted xs) : listLookup k (listErase k xs) = none := by
  induction xs with
  | nil => rfl
  | cons q xs ih =>
    obtain ⟨hq, hxs⟩ := List.pairwise_cons.1 h
    rcases lt_trichotomy k q.1 with h1 | h1 | h1
    · rw [listErase_cons_lt k q xs h1]
      refine listLookup_eq_none ?_
      intro p hp
      rcases List.mem_cons.1 hp with rfl | hp
      · exact ne_of_gt h1
      · exact ne_of_gt (h1.trans (hq p hp))
    · rw [listErase_cons_eq k q xs (by rw [h1]; exact lt_irrefl q.1) (by rw [h1]; exact lt_irrefl q.1)]
      refine listLookup_eq_none ?_
      intro p hp
      exact ne_of_gt (lt_of_le_of_lt h1.le (hq p hp))
    · rw [listErase_cons_gt k q xs h1]
      have hne : k ≠ q.1 := ne_of_gt h1
      simp [listLookup, hne, ih hxs]

theorem length_listPut {k : α} {v : β} {xs : List (α × β)} (h : KSorted xs) :
    (listPut k v xs).length =
      match listLookup k xs with
      | none => xs.length + 1
      | some _ => xs.length := by
  induction xs with
  | nil => simp [listPut, listLookup]
  | cons q xs ih =>
    obtain ⟨hq, hxs⟩ := List.pairwise_cons.1 h
    rcases lt_trichotomy k q.1 with h1 | h1 | h1
    · have hne : k ≠ q.1 := ne_of_lt h1
      have hnone : listLookup k xs = none := by
        refine listLookup_eq_none ?_
        intro p hp
        exact ne_of_gt (h1.trans (hq p hp))
      rw [listPut_cons_lt k v q xs h1]
      simp [listLookup, hne, hnone]
    · rw [listPut_cons_eq k v q xs (by rw [h1]; exact lt_irrefl q.1) (by rw [h1]; exact lt_irrefl q.1)]
      simp [listLookup, h1]
    · have hne : k ≠ q.1 := ne_of_gt h1
      rw [listPut_cons_gt k v q xs h1]
      simp only [listLookup, if_neg hne, List.length_cons]
      rw [ih hxs]
      cases listLookup k xs <;> simp

theorem length_listErase {k : α} {xs : List (α × β)} (h : KSorted xs) :
    (listErase k xs).length =
      match listLookup k xs with
      | none => xs.length
      | some _ => xs.length - 1 := by
  induction xs with
  | nil => simp [listErase, listLookup]
  | cons q xs ih =>
    obtain ⟨hq, hxs⟩ := List.pairwise_cons.1 h
    rcases lt_trichotomy k q.1 with h1 | h1 | h1
    · have hne : k ≠ q.1 := ne_of_lt h1
      have hnone : listLookup k xs = none := by
        refine listLookup_eq_none ?_
        intro p hp
        exact ne_of_gt (h1.trans (hq p hp))
      rw [listErase_cons_lt k q xs h1]
      simp [listLookup, hne, hnone]
    · rw [listErase_cons_eq k q xs (by rw [h1]; exact lt_irrefl q.1) (by rw [h1]; exact lt_irrefl q.1)]
      simp [listLookup, h1]
    · have hne : k ≠ q.1 := ne_of_gt h1
      rw [listErase_cons_gt k q xs h1]
      simp only [listLookup, if_neg hne, List.length_cons]
      rw [ih hxs]
      cases hcase : listLookup k xs with
      | none => simp
      | some w =>
        have h1len : 1 ≤ xs.length := by
          cases xs with
          | nil => simp [listLookup] at hcase
          | cons _ _ => simp
        simp [Nat.sub_add_comm h1len]

theorem listLookup_mem {k : α} {v : β} {xs : List (α × β)}
    (h : listLookup k xs = some v) : (k, v) ∈ xs := by
  induction xs with
  | nil => simp [listLookup] at h
  | cons q xs ih =>
    by_cases h1 : k = q.1
    · simp only [listLookup, if_pos h1] at h
      subst h1
      obtain rfl : q.2 = v := Option.some_inj.1 h
      exact List.mem_cons_self q xs
    · simp only [listLookup, if_neg h1] at h
      exact List.mem_cons_of_mem q (ih h)

theorem listLookup_of_mem {xs : List (α × β)} {p : α × β}
    (h : KSorted xs) (hp : p ∈ xs) : listLookup p.1 xs = some p.2 := by
  induction xs with
  | nil => simp at hp
  | cons q xs ih =>
    obtain ⟨hq, hxs⟩ := List.pairwise_cons.1 h
    rcases List.mem_cons.1 hp with rfl | hp
    · simp [listLookup]
    · have hne : p.1 ≠ q.1 := ne_of_gt (hq p hp)
      simp [listLookup, hne, ih hxs hp]

end AssocModel

/-! ## Contents of the tree operations

The engine operations agree, on ordered trees, with the reference
sorted-association-list model: this is the formal content of the spec's
"randomized differential test" property (§8) and the basis for the
order/size/round-trip properties. -/

namespace rbt

namespace Node

open AssocModel Color

variable {α β : Type}

theorem all_iff_forall_mem {p : α → β → Prop} {t : Node α β} :
    All p t ↔ ∀ x ∈ t.toList, p x.1 x.2 := by
  induction t with
  | nil => simp
  | node c l k v r ihl ihr =>
    simp only [All, toList, List.mem_append, List.mem_cons, ihl, ihr]
    constructor
    · rintro ⟨hkv, h1, h2⟩ x hx
      rcases hx with hx | rfl | hx
      · exact h1 x hx
      · exact hkv
      · exact h2 x hx
    · intro h
      exact ⟨h (k, v) (Or.inr (Or.inl rfl)), fun x hx => h x (Or.inl hx),
        fun x hx => h x (Or.inr (Or.inr hx))⟩

variable [LinearOrder α]

theorem ordered_iff_ksorted {t : Node α β} : Ordered t ↔ KSorted t.toList := by
  induction t with
  | nil => simp [KSorted]
  | node c l k v r ihl ihr =>
    simp only [Ordered, toList]
    rw [KSorted, List.pairwise_append, List.pairwise_cons]
    constructor
    · rintro ⟨hlk, hkr, ol, or⟩
      have hl' := all_iff_forall_mem.1 hlk
      have hr' := all_iff_forall_mem.1 hkr
      refine ⟨ihl.1 ol, ⟨fun y hy => hr' y hy, ihr.1 or⟩, ?_⟩
      intro x hx y hy
      rcases List.mem_cons.1 hy with rfl | hy
      · exact hl' x hx
      · exact (hl' x hx).trans (hr' y hy)
    · rintro ⟨pl, ⟨hkr, pr⟩, cross⟩
      refine ⟨?_, ?_, ihl.2 pl, ihr.2 pr⟩
      · exact all_iff_forall_mem.2 fun x hx => cross x hx (k, v) (List.mem_cons_self _ _)
      · exact all_iff_forall_mem.2 fun y hy => hkr y hy

theorem toList_ins {t : Node α β} {k : α} {v : β} (h : Ordered t) :
    (ins k v t).toList = listPut k v t.toList := by
  induction t with
  | nil => simp [ins, listPut]
  | node c l k' v' r ihl ihr =>
    obtain ⟨hlk, hkr, ol, or⟩ := h
    have hlm := all_iff_forall_mem.1 hlk
    have hrm := all_iff_forall_mem.1 hkr
    rcases lt_trichotomy k k' with h1 | h1 | h1
    · have hys : ∀ p ∈ (k', v') :: r.toList, k < p.1 := by
        intro p hp
        rcases List.mem_cons.1 hp with rfl | hp
        · exact h1
        · exact h1.trans (hrm p hp)
      cases c
      · have e : ins k v (node red l k' v' r) = node red (ins k v l) k' v' r := by
          simp [ins, h1]
        rw [e, toList, toList, listPut_append_right hys, ihl ol]
      · have e : ins k v (node black l k' v' r) = balance1 (ins k v l) k' v' r := by
          simp [ins, h1]
        rw [e, toList_balance1, toList, listPut_append_right hys, ihl ol]
    · subst h1
      have hxs : ∀ p ∈ l.toList, p.1 < k := fun p hp => hlm p hp
      have e2 : listPut k v ((k, v') :: r.toList) = (k, v) :: r.toList :=
        listPut_cons_eq k v (k, v') r.toList (not_lt.2 le_rfl) (not_lt.2 le_rfl)
      cases c
      · have e : ins k v (node red l k v' r) = node red l k v r := by
          simp [ins]
        rw [e, toList, toList, listPut_append_left hxs, e2]
      · have e : ins k v (node black l k v' r) = node black l k v r := by
          simp [ins]
        rw [e, toList, toList, listPut_append_left hxs, e2]
    · have hxs : ∀ p ∈ l.toList, p.1 < k := fun p hp => (hlm p hp).trans h1
      cases c
      · have e : ins k v (node red l k' v' r) = node red l k' v' (ins k v r) := by
          simp [ins, asymm h1, h1]
        rw [e, toList, toList, listPut_append_left hxs, listPut_cons_gt k v (k', v') r.toList h1, ihr or]
      · have e : ins k v (node black l k' v' r) = balance2 l k' v' (ins k v r) := by
          simp [ins, asymm h1, h1]
        rw [e, toList_balance2, toList, listPut_append_left hxs, listPut_cons_gt k v (k', v') r.toList h1, ihr or]

theorem toList_put {t : Node α β} {k : α} {v : β} (h : Ordered t) :
    (put k v t).toList = listPut k v t.toList := by
  rw [put, toList_setBlack, toList_ins h]

theorem toList_del {t : Node α β} {k : α} (h : Ordered t) :
    (del k t).toList = listErase k t.toList := by
  induction t with
  | nil => simp [del, listErase]
  | node c l k' v' r ihl ihr =>
    obtain ⟨hlk, hkr, ol, or⟩ := h
    have hlm := all_iff_forall_mem.1 hlk
    have hrm := all_iff_forall_mem.1 hkr
    rcases lt_trichotomy k k' with h1 | h1 | h1
    · have hys : ∀ p ∈ (k', v') :: r.toList, k < p.1 := by
        intro p hp
        rcases List.mem_cons.1 hp with rfl | hp
        · exact h1
        · exact h1.trans (hrm p hp)
      have e : (del k (node c l k' v' r)).toList = (del k l).toList ++ (k', v') :: r.toList := by
        simp only [del]
        rw [if_pos h1]
        cases l with
        | nil => simp
        | node cl a ka va b => cases cl <;> simp
      rw [e, toList, listErase_append_right hys, ihl ol]
    · subst h1
      have e : del k (node c l k v' r) = glue l r := by
        simp [del]
      rw [e, toList_glue, toList, listErase_append_left hlm,
        listErase_cons_eq k (k, v') r.toList (not_lt.2 le_rfl) (not_lt.2 le_rfl)]
    · have hxs : ∀ p ∈ l.toList, p.1 < k := fun p hp => (hlm p hp).trans h1
      have e : (del k (node c l k' v' r)).toList = l.toList ++ (k', v') :: (del k r).toList := by
        simp only [del]
        rw [if_neg (asymm h1), if_pos h1]
        cases r with
        | nil => simp
        | node cr a ka va b => cases cr <;> simp
      rw [e, toList, listErase_append_left hxs, listErase_cons_gt k (k', v') r.toList h1, ihr or]

theorem toList_remove {t : Node α β} {k : α} (h : Ordered t) :
    (remove k t).toList = listErase k t.toList := by
  rw [remove, toList_setBlack, toList_del h]

theorem search_eq_listLookup {t : Node α β} {k : α} (h : Ordered t) :
    search k t = listLookup k t.toList := by
  induction t with
  | nil => simp [search, listLookup]
  | node c l k' v' r ihl ihr =>
    obtain ⟨hlk, hkr, ol, or⟩ := h
    have hlm := all_iff_forall_mem.1 hlk
    have hrm := all_iff_forall_mem.1 hkr
    rw [toList, listLookup_append]
    rcases lt_trichotomy k k' with h1 | h1 | h1
    · have e : search k (node c l k' v' r) = search k l := by simp [search, h1]
      rw [e, ihl ol]
      cases hc : listLookup k l.toList with
      | some w => simp
      | none =>
        have hnone : listLookup k ((k', v') :: r.toList) = none := by
          refine listLookup_eq_none ?_
          intro p hp
          rcases List.mem_cons.1 hp with rfl | hp
          · exact ne_of_gt h1
          · exact ne_of_gt (h1.trans (hrm p hp))
        simp [hnone]
    · subst h1
      have e : search k (node c l k v' r) = some v' := by simp [search]
      have hnone : listLookup k l.toList = none := by
        refine listLookup_eq_none ?_
        intro p hp
        exact ne_of_lt (hlm p hp)
      rw [e, hnone]
      simp [listLookup]
    · have e : search k (node c l k' v' r) = search k r := by simp [search, asymm h1, h1]
      have hnone : listLookup k l.toList = none := by
        refine listLookup_eq_none ?_
        intro p hp
        exact ne_of_lt ((hlm p hp).trans h1)
      rw [e, hnone, ihr or]
      have hne : k ≠ k' := ne_of_gt h1
      simp [listLookup, hne]

theorem ordered_put {t : Node α β} {k : α} {v : β} (h : Ordered t) :
    Ordered (put k v t) := by
  rw [ordered_iff_ksorted, toList_put h]
  exact ksorted_listPut (ordered_iff_ksorted.1 h)

theorem ordered_del {t : Node α β} {k : α} (h : Ordered t) :
    Ordered (del k t) := by
  rw [ordered_iff_ksorted, toList_del h]
  exact ksorted_listErase (ordered_iff_ksorted.1 h)

theorem ordered_remove {t : Node α β} {k : α} (h : Ordered t) :
    Ordered (remove k t) := by
  rw [ordered_iff_ksorted, toList_remove h]
  exact ksorted_listErase (ordered_iff_ksorted.1 h)

theorem search_put_self {t : Node α β} {k : α} {v : β} (h : Ordered t) :
    search k (put k v t) = some v := by
  rw [search_eq_listLookup (ordered_put h), toList_put h, listLookup_listPut_self]

theorem search_remove_self {t : Node α β} {k : α} (h : Ordered t) :
    search k (remove k t) = none := by
  rw [search_eq_listLookup (ordered_remove h), toList_remove h]
  exact listLookup_listErase_self (ordered_iff_ksorted.1 h)

end Node

end rbt

/-! ## The red-black balance invariants

The spec's invariants 2-4 (§3): root always black, no red node with a red
child, equal black count on every path from a node down to a conceptual
black nil leaf.  `Balanced t c n` is the standard inductive packaging of
the last two (`c` = root color, `n` = black height); `RedRed p t n`
relaxes it by allowing one red-red violation at the root, provided `p`. -/

namespace rbt

namespace Node

open Color

variable {α β : Type}

/-- Modelled from the spec (§3 invariants 3 and 4): `Balanced t c n`
states that `t`'s root has color `c`, no red node of `t` has a red child,
and every path from the root to a conceptual nil leaf passes through
exactly `n` black nodes. -/
inductive Balanced : Node α β → Color → Nat → Prop where
  | nil : Balanced nil black 0
  | red {l r : Node α β} {k : α} {v : β} {n : Nat} :
      Balanced l black n → Balanced r black n → Balanced (node red l k v r) red n
  | black {l r : Node α β} {k : α} {v : β} {c₁ c₂ : Color} {n : Nat} :
      Balanced l c₁ n → Balanced r c₂ n → Balanced (node black l k v r) black (n + 1)

/-- Intermediate state of the fixup protocols: balanced except possibly
for one red-red violation at the root, allowed only when `p` holds. -/
inductive RedRed (p : Prop) : Node α β → Nat → Prop where
  | balanced {t : Node α β} {c : Color} {n : Nat} : Balanced t c n → RedRed p t n
  | redred {l r : Node α β} {k : α} {v : β} {c₁ c₂ : Color} {n : Nat} (h : p) :
      Balanced l c₁ n → Balanced r c₂ n → RedRed p (node red l k v r) n

theorem rr_of_false {p : Prop} {t : Node α β} {n : Nat} (hp : ¬p)
    (h : RedRed p t n) : ∃ c, Balanced t c n := by
  cases h with
  | balanced hb => exact ⟨_, hb⟩
  | redred hq h1 h2 => exact absurd hq hp

theorem rr_imp {p q : Prop} {t : Node α β} {n : Nat} (hpq : p → q)
    (h : RedRed p t n) : RedRed q t n := by
  cases h with
  | balanced hb => exact .balanced hb
  | redred hq h1 h2 => exact .redred (hpq hq) h1 h2

theorem rr_setBlack {p : Prop} {t : Node α β} {n : Nat}
    (h : RedRed p t n) : ∃ n', Balanced t.setBlack black n' := by
  cases h with
  | balanced hb =>
    cases hb with
    | nil => exact ⟨0, .nil⟩
    | red h1 h2 => exact ⟨_, .black h1 h2⟩
    | black h1 h2 => exact ⟨_, .black h1 h2⟩
  | redred hq h1 h2 => exact ⟨_, .black h1 h2⟩

theorem balanced_setBlack {t : Node α β} {c : Color} {n : Nat}
    (h : Balanced t c n) : ∃ n', Balanced t.setBlack black n' := by
  cases h with
  | nil => exact ⟨0, .nil⟩
  | red h1 h2 => exact ⟨_, .black h1 h2⟩
  | black h1 h2 => exact ⟨_, .black h1 h2⟩

theorem rr_of_not_red {p : Prop} {l : Node α β} {n : Nat} (hl : RedRed p l n)
    (hcon : ∀ (a : Node α β) (kx : α) (vx : β) (b : Node α β),
      l = node red a kx vx b → False) : ∃ c, Balanced l c n := by
  cases hl with
  | balanced hb => exact ⟨_, hb⟩
  | redred hq h1 h2 => exact absurd rfl (hcon _ _ _ _)

theorem balanced_blacken {t : Node α β} {c : Color} {n : Nat} (h : Balanced t c n)
    (hcon : ∀ (a : Node α β) (kx : α) (vx : β) (b : Node α β),
      t = node red a kx vx b → False) : Balanced t black n := by
  cases h with
  | nil => exact .nil
  | black h1 h2 => exact .black h1 h2
  | red h1 h2 => exact (hcon _ _ _ _ rfl).elim

theorem balance1_rr {p : Prop} {l : Node α β} {k : α} {v : β} {r : Node α β} {c : Color} {n : Nat}
    (hl : RedRed p l n) (hr : Balanced r c n) :
    ∃ c', Balanced (balance1 l k v r) c' (n + 1) := by
  unfold balance1
  split
  · cases hl with
    | balanced hb => cases hb with | red h1 h2 => cases h1
    | redred hp h1 h2 =>
      cases h1 with
      | red ha hb => exact ⟨red, .red (.black ha hb) (.black h2 hr)⟩
  · cases hl with
    | balanced hb => cases hb with | red h1 h2 => cases h2
    | redred hp h1 h2 =>
      cases h2 with
      | red hb hc => exact ⟨red, .red (.black h1 hb) (.black hc hr)⟩
  · rename_i hcon1 hcon2
    cases hl with
    | balanced hb => exact ⟨black, .black hb hr⟩
    | redred hp h1 h2 =>
      rename_i l' r' k' v' c₁ c₂
      have hb1 : Balanced l' black n :=
        balanced_blacken h1 fun a kx vx b he => hcon1 a kx vx b k' v' r' (by rw [he])
      have hb2 : Balanced r' black n :=
        balanced_blacken h2 fun a kx vx b he => hcon2 l' k' v' a kx vx b (by rw [he])
      exact ⟨black, .black (.red hb1 hb2) hr⟩

theorem balance2_rr {p : Prop} {l : Node α β} {k : α} {v : β} {r : Node α β} {c : Color} {n : Nat}
    (hl : Balanced l c n) (hr : RedRed p r n) :
    ∃ c', Balanced (balance2 l k v r) c' (n + 1) := by
  unfold balance2
  split
  · cases hr with
    | balanced hb => cases hb with | red h1 h2 => cases h2
    | redred hp h1 h2 =>
      cases h2 with
      | red hb hc => exact ⟨red, .red (.black hl h1) (.black hb hc)⟩
  · cases hr with
    | balanced hb => cases hb with | red h1 h2 => cases h1
    | redred hp h1 h2 =>
      cases h1 with
      | red ha hb => exact ⟨red, .red (.black hl ha) (.black hb h2)⟩
  · rename_i hcon1 hcon2
    cases hr with
    | balanced hb => exact ⟨black, .black hl hb⟩
    | redred hp h1 h2 =>
      rename_i l' r' k' v' c₁ c₂
      have hb1 : Balanced l' black n :=
        balanced_blacken h1 fun a kx vx b he => hcon2 a kx vx b k' v' r' (by rw [he])
      have hb2 : Balanced r' black n :=
        balanced_blacken h2 fun a kx vx b he => hcon1 l' k' v' a kx vx b (by rw [he])
      exact ⟨black, .black hl (.red hb1 hb2)⟩

section InsBalance

variable [LinearOrder α]

theorem balanced_ins (k : α) (v : β) {t : Node α β} {c : Color} {n : Nat}
    (h : Balanced t c n) : RedRed (c = red) (ins k v t) n := by
  induction h with
  | nil => exact .balanced (.red .nil .nil)
  | @red l r k' v' n hl hr ihl ihr =>
    rcases lt_trichotomy k k' with h1 | h1 | h1
    · have e : ins k v (node red l k' v' r) = node red (ins k v l) k' v' r := by
        simp [ins, h1]
      rw [e]
      obtain ⟨c', hi⟩ := rr_of_false (fun h => Color.noConfusion h) ihl
      cases c' with
      | black => exact .balanced (.red hi hr)
      | red => exact .redred rfl hi hr
    · subst h1
      have e : ins k v (node red l k v' r) = node red l k v r := by
        simp [ins]
      rw [e]
      exact .balanced (.red hl hr)
    · have e : ins k v (node red l k' v' r) = node red l k' v' (ins k v r) := by
        simp [ins, asymm h1, h1]
      rw [e]
      obtain ⟨c', hi⟩ := rr_of_false (fun h => Color.noConfusion h) ihr
      cases c' with
      | black => exact .balanced (.red hl hi)
      | red => exact .redred rfl hl hi
  | @black l r k' v' c₁ c₂ n hl hr ihl ihr =>
    rcases lt_trichotomy k k' with h1 | h1 | h1
    · have e : ins k v (node black l k' v' r) = balance1 (ins k v l) k' v' r := by
        simp [ins, h1]
      rw [e]
      obtain ⟨c', hb⟩ := balance1_rr ihl hr
      exact .balanced hb
    · subst h1
      have e : ins k v (node black l k v' r) = node black l k v r := by
        simp [ins]
      rw [e]
      exact .balanced (.black hl hr)
    · have e : ins k v (node black l k' v' r) = balance2 l k' v' (ins k v r) := by
        simp [ins, asymm h1, h1]
      rw [e]
      obtain ⟨c', hb⟩ := balance2_rr hl ihr
      exact .balanced hb

theorem balanced_put (k : α) (v : β) {t : Node α β} {c : Color} {n : Nat}
    (h : Balanced t c n) : ∃ n', Balanced (put k v t) black n' :=
  rr_setBlack (balanced_ins k v h)

end InsBalance

theorem balLeft_rr {l : Node α β} {k : α} {v : β} {r : Node α β} {cr : Color} {n : Nat}
    (hl : RedRed True l n) (hr : Balanced r cr (n + 1)) :
    RedRed (cr = red) (balLeft l k v r) (n + 1) := by
  unfold balLeft
  split
  · rename_i a kx vx b
    have hab : Balanced (node black a kx vx b) black (n + 1) := by
      cases hl with
      | balanced hb => cases hb with | red h1 h2 => exact .black h1 h2
      | redred hp h1 h2 => exact .black h1 h2
    cases cr with
    | black => exact .balanced (.red hab hr)
    | red => exact .redred rfl hab hr
  · rename_i hconl
    split
    · rename_i a ky vy b
      obtain ⟨cl, hbl⟩ := rr_of_not_red hl fun x kx vx y he => hconl x kx vx y (by rw [he])
      cases hr with
      | black h1 h2 =>
        obtain ⟨c', hb⟩ := balance2_rr hbl (.redred trivial h1 h2)
        exact .balanced hb
    · rename_i a ky vy b kz vz cc
      cases hr with
      | red h1 h2 =>
        cases h1 with
        | black ha hb =>
          obtain ⟨cl, hbl⟩ := rr_of_not_red hl fun x kx vx y he => hconl x kx vx y (by rw [he])
          have rrc : RedRed True cc.setRed n := by
            cases h2 with
            | black hc1 hc2 => exact .redred trivial hc1 hc2
          obtain ⟨c', hb2⟩ := balance2_rr hb rrc
          exact .redred rfl (.black hbl ha) hb2
    · rename_i hcon1 hcon2
      cases hr with
      | red h1 h2 =>
        cases h1 with
        | black ha hb => exact (hcon2 _ _ _ _ _ _ _ rfl).elim
      | black h1 h2 => exact (hcon1 _ _ _ _ rfl).elim

theorem balRight_rr {l : Node α β} {k : α} {v : β} {r : Node α β} {cl : Color} {n : Nat}
    (hl : Balanced l cl (n + 1)) (hr : RedRed True r n) :
    RedRed (cl = red) (balRight l k v r) (n + 1) := by
  unfold balRight
  split
  · rename_i b ky vy c
    have hbc : Balanced (node black b ky vy c) black (n + 1) := by
      cases hr with
      | balanced hb => cases hb with | red h1 h2 => exact .black h1 h2
      | redred hp h1 h2 => exact .black h1 h2
    cases cl with
    | black => exact .balanced (.red hl hbc)
    | red => exact .redred rfl hl hbc
  · rename_i hconr
    split
    · rename_i a kx vx b
      obtain ⟨cr, hbr⟩ := rr_of_not_red hr fun x kx vx y he => hconr x kx vx y (by rw [he])
      cases hl with
      | black h1 h2 =>
        obtain ⟨c', hb⟩ := balance1_rr (.redred trivial h1 h2) hbr
        exact .balanced hb
    · rename_i a kx vx b ky vy c
      cases hl with
      | red h1 h2 =>
        cases h2 with
        | black hb hc =>
          obtain ⟨cr, hbr⟩ := rr_of_not_red hr fun x kx vx y he => hconr x kx vx y (by rw [he])
          have rra : RedRed True a.setRed n := by
            cases h1 with
            | black ha1 ha2 => exact .redred trivial ha1 ha2
          obtain ⟨c', hb1⟩ := balance1_rr rra hb
          exact .redred rfl hb1 (.black hc hbr)
    · rename_i hcon1 hcon2
      cases hl with
      | red h1 h2 =>
        cases h2 with
        | black hb hc => exact (hcon2 _ _ _ _ _ _ _ rfl).elim
      | black h1 h2 => exact (hcon1 _ _ _ _ rfl).elim

theorem balanced_glue {l r : Node α β} {c₁ c₂ : Color} {n : Nat}
    (hl : Balanced l c₁ n) (hr : Balanced r c₂ n) :
    RedRed (c₁ = black → c₂ ≠ black) (glue l r) n := by
  unfold glue
  split
  · exact .balanced hr
  · exact .balanced hl
  · rename_i a kx vx b c ky vy d
    cases hl with
    | red ha hb =>
      cases hr with
      | red hc hd =>
        obtain ⟨cbc, ih⟩ := rr_of_false (fun f => (f rfl) rfl) (balanced_glue hb hc)
        split
        · rename_i b' kz vz c' he
          rw [he] at ih
          cases ih with
          | red hb' hc' => exact .redred nofun (.red ha hb') (.red hc' hd)
        · rename_i hcon
          have hbc : Balanced (glue b c) black n := balanced_blacken ih hcon
          exact .redred nofun ha (.red hbc hd)
  · rename_i a kx vx b c ky vy d
    cases hl with
    | black ha hb =>
      cases hr with
      | black hc hd =>
        have ih := balanced_glue hb hc
        split
        · rename_i b' kz vz c' he
          rw [he] at ih
          cases ih with
          | balanced hbal =>
            cases hbal with
            | red hb' hc' => exact .balanced (.red (.black ha hb') (.black hc' hd))
          | redred hp h1 h2 => exact .balanced (.red (.black ha h1) (.black h2 hd))
        · rename_i hcon
          obtain ⟨cbc, hbc⟩ := rr_of_not_red ih hcon
          obtain ⟨c', hb'⟩ :=
            rr_of_false (fun h => Color.noConfusion h) (balLeft_rr (.balanced ha) (.black hbc hd))
          exact .balanced hb'
  · rename_i l1 k1 v1 r1 b kx vx c
    cases hr with
    | red hb hc =>
      cases hl with
      | black h1 h2 =>
        obtain ⟨cab, hab⟩ :=
          rr_of_false (fun f => (f rfl) rfl) (balanced_glue (Balanced.black h1 h2) hb)
        exact .redred (fun _ h => Color.noConfusion h) hab hc
  · rename_i a kx vx b l1 k1 v1 r1
    cases hl with
    | red ha hb =>
      cases hr with
      | black h1 h2 =>
        obtain ⟨cbr, hbr⟩ :=
          rr_of_false (fun f => (f rfl) rfl) (balanced_glue hb (Balanced.black h1 h2))
        exact .redred nofun ha hbr
termination_by l.size + r.size

/-- Invariant of `del`'s intermediate result: when the deleted-from
subtree had a black root the black height drops by one and a root red-red
violation may remain (the "double black" deficiency of the spec's
DeleteFixup, §4.1); otherwise the result stays balanced at the same
height. -/
def DelProp (t₀ d : Node α β) (n : Nat) : Prop :=
  match t₀ with
  | node black _ _ _ _ => ∃ n', n = n' + 1 ∧ RedRed True d n'
  | _ => ∃ c', Balanced d c' n

section DelBalance

variable [LinearOrder α]

theorem balanced_del (k : α) {t : Node α β} {c : Color} {n : Nat}
    (h : Balanced t c n) : DelProp t (del k t) n := by
  induction h with
  | nil => exact ⟨black, .nil⟩
  | @red l r k' v' n hl hr ihl ihr =>
    simp only [DelProp]
    rcases lt_trichotomy k k' with h1 | h1 | h1
    · cases hl with
      | nil =>
        have e : del k (node red nil k' v' r) = node red (del k nil) k' v' r := by
          simp [del, h1]
        rw [e]
        exact ⟨red, .red .nil hr⟩
      | @black la lb ka va ca cb m ha hb =>
        simp only [DelProp] at ihl
        obtain ⟨n₂, hn, hrr⟩ := ihl
        obtain rfl : m = n₂ := Nat.succ.inj hn
        have e : del k (node red (node black la ka va lb) k' v' r) =
            balLeft (del k (node black la ka va lb)) k' v' r := by
          simp [del, h1]
        rw [e]
        exact rr_of_false (fun h => Color.noConfusion h) (balLeft_rr hrr hr)
    · subst h1
      have e : del k (node red l k v' r) = glue l r := by
        simp [del]
      rw [e]
      exact rr_of_false (fun f => (f rfl) rfl) (balanced_glue hl hr)
    · cases hr with
      | nil =>
        have e : del k (node red l k' v' nil) = node red l k' v' (del k nil) := by
          simp [del, asymm h1, h1]
        rw [e]
        exact ⟨red, .red hl .nil⟩
      | @black ra rb ka va ca cb m ha hb =>
        simp only [DelProp] at ihr
        obtain ⟨n₂, hn, hrr⟩ := ihr
        obtain rfl : m = n₂ := Nat.succ.inj hn
        have e : del k (node red l k' v' (node black ra ka va rb)) =
            balRight l k' v' (del k (node black ra ka va rb)) := by
          simp [del, asymm h1, h1]
        rw [e]
        exact rr_of_false (fun h => Color.noConfusion h) (balRight_rr hl hrr)
  | @black l r k' v' c₁ c₂ n hl hr ihl ihr =>
    simp only [DelProp]
    refine ⟨n, rfl, ?_⟩
    rcases lt_trichotomy k k' with h1 | h1 | h1
    · cases hl with
      | nil =>
        have e : del k (node black nil k' v' r) = node red (del k nil) k' v' r := by
          simp [del, h1]
        rw [e]
        exact .redred trivial .nil hr
      | @red la lb ka va m ha hb =>
        simp only [DelProp] at ihl
        obtain ⟨ci, hd⟩ := ihl
        have e : del k (node black (node red la ka va lb) k' v' r) =
            node red (del k (node red la ka va lb)) k' v' r := by
          simp [del, h1]
        rw [e]
        exact .redred trivial hd hr
      | @black la lb ka va ca cb m ha hb =>
        simp only [DelProp] at ihl
        obtain ⟨n₂, hn, hrr⟩ := ihl
        obtain rfl : m = n₂ := Nat.succ.inj hn
        have e : del k (node black (node black la ka va lb) k' v' r) =
            balLeft (del k (node black la ka va lb)) k' v' r := by
          simp [del, h1]
        rw [e]
        exact rr_imp (fun _ => trivial) (balLeft_rr hrr hr)
    · subst h1
      have e : del k (node black l k v' r) = glue l r := by
        simp [del]
      rw [e]
      exact rr_imp (fun _ => trivial) (balanced_glue hl hr)
    · cases hr with
      | nil =>
        have e : del k (node black l k' v' nil) = node red l k' v' (del k nil) := by
          simp [del, asymm h1, h1]
        rw [e]
        exact .redred trivial hl .nil
      | @red ra rb ka va m ha hb =>
        simp only [DelProp] at ihr
        obtain ⟨ci, hd⟩ := ihr
        have e : del k (node black l k' v' (node red ra ka va rb)) =
            node red l k' v' (del k (node red ra ka va rb)) := by
          simp [del, asymm h1, h1]
        rw [e]
        exact .redred trivial hl hd
      | @black ra rb ka va ca cb m ha hb =>
        simp only [DelProp] at ihr
        obtain ⟨n₂, hn, hrr⟩ := ihr
        obtain rfl : m = n₂ := Nat.succ.inj hn
        have e : del k (node black l k' v' (node black ra ka va rb)) =
            balRight l k' v' (del k (node black ra ka va rb)) := by
          simp [del, asymm h1, h1]
        rw [e]
        exact rr_imp (fun _ => trivial) (balRight_rr hl hrr)

theorem balanced_remove (k : α) {t : Node α β} {c : Color} {n : Nat}
    (h : Balanced t c n) : ∃ n', Balanced (remove k t) black n' := by
  have hd := balanced_del k h
  cases t with
  | nil =>
    simp only [DelProp] at hd
    obtain ⟨c', hb⟩ := hd
    exact balanced_setBlack hb
  | node tc tl tk tv tr =>
    cases tc with
    | red =>
      simp only [DelProp] at hd
      obtain ⟨c', hb⟩ := hd
      exact balanced_setBlack hb
    | black =>
      simp only [DelProp] at hd
      obtain ⟨n', hn, hrr⟩ := hd
      exact rr_setBlack hrr

end DelBalance

end Node

end rbt


/-! ## The spec's observable red-black invariants

The spec states the invariants (§3, §8) over colors and root-to-leaf
paths; these executable predicates phrase them exactly that way, and are
implied by `Balanced`. -/

namespace rbt

namespace Node

open Color

variable {α β : Type}

/-- Whether the root of the subtree is a red node. -/
def isRedRoot : Node α β → Bool
  | node red _ _ _ _ => true
  | _ => false

/-- Spec §3 invariant 2: "Root is always colored Black (or the tree is
empty)". -/
def rootIsBlack : Node α β → Bool
  | nil => true
  | node black _ _ _ _ => true
  | node red _ _ _ _ => false

/-- Spec §3 invariant 3: "No Red node has a Red child (no two consecutive
reds on any parent-child edge)". -/
def noRedRed : Node α β → Bool
  | nil => true
  | node red l _ _ r => !l.isRedRoot && !r.isRedRoot && noRedRed l && noRedRed r
  | node black l _ _ r => noRedRed l && noRedRed r

/-- The number of Black nodes on each root-to-leaf path of the subtree,
one list entry per path; the conceptual nil leaves are Black (spec §3
invariant 4) and contribute the count 1 at `nil`. -/
def pathBlackCounts : Node α β → List Nat
  | nil => [1]
  | node black l _ _ r => (pathBlackCounts l ++ pathBlackCounts r).map (· + 1)
  | node red l _ _ r => pathBlackCounts l ++ pathBlackCounts r

/-- Spec §3 invariant 4: every path from a given node down to a descendant
(conceptual Black nil) leaf contains the same number of Black nodes — at
this node and recursively at every node below it. -/
def BlackHeightInv : Node α β → Prop
  | nil => True
  | node c l k v r =>
      (∃ h, ∀ m ∈ pathBlackCounts (node c l k v r), m = h) ∧
        BlackHeightInv l ∧ BlackHeightInv r

theorem isRedRoot_false_of_black {t : Node α β} {n : Nat}
    (h : Balanced t black n) : isRedRoot t = false := by
  cases h <;> rfl

theorem rootIsBlack_of_balanced {t : Node α β} {n : Nat}
    (h : Balanced t black n) : rootIsBlack t = true := by
  cases h <;> rfl

theorem noRedRed_of_balanced {t : Node α β} {c : Color} {n : Nat}
    (h : Balanced t c n) : noRedRed t = true := by
  induction h with
  | nil => rfl
  | red h1 h2 ih1 ih2 =>
    simp [noRedRed, ih1, ih2, isRedRoot_false_of_black h1, isRedRoot_false_of_black h2]
  | black h1 h2 ih1 ih2 => simp [noRedRed, ih1, ih2]

theorem pathBlackCounts_const {t : Node α β} {c : Color} {n : Nat}
    (h : Balanced t c n) : ∀ m ∈ pathBlackCounts t, m = n + 1 := by
  induction h with
  | nil =>
    intro m hm
    simp [pathBlackCounts] at hm
    exact hm
  | red h1 h2 ih1 ih2 =>
    intro m hm
    simp only [pathBlackCounts, List.mem_append] at hm
    rcases hm with hm | hm
    · exact ih1 m hm
    · exact ih2 m hm
  | black h1 h2 ih1 ih2 =>
    intro m hm
    simp only [pathBlackCounts, List.mem_map, List.mem_append] at hm
    obtain ⟨m', hm', rfl⟩ := hm
    rcases hm' with hm' | hm'
    · rw [ih1 m' hm']
    · rw [ih2 m' hm']

theorem blackHeightInv_of_balanced {t : Node α β} {c : Color} {n : Nat}
    (h : Balanced t c n) : BlackHeightInv t := by
  induction h with
  | nil => trivial
  | red h1 h2 ih1 ih2 =>
    exact ⟨⟨_, pathBlackCounts_const (.red h1 h2)⟩, ih1, ih2⟩
  | black h1 h2 ih1 ih2 =>
    exact ⟨⟨_, pathBlackCounts_const (.black h1 h2)⟩, ih1, ih2⟩

end Node

end rbt

/-! ## Min, Max, Floor and Ceiling on ordered trees -/

namespace rbt

namespace Node

open Color

variable {α β : Type}

theorem mem_toList_node {c : Color} {l r : Node α β} {k : α} {v : β} {p : α × β} :
    p ∈ (node c l k v r).toList ↔ p ∈ l.toList ∨ p = (k, v) ∨ p ∈ r.toList := by
  simp [toList]

theorem keys_mem_of_toList {t : Node α β} {p : α × β} (h : p ∈ t.toList) :
    p.1 ∈ t.keys :=
  List.mem_map_of_mem Prod.fst h

theorem mem_keys_node {c : Color} {l r : Node α β} {k v : _} {k' : α} :
    k' ∈ (node c l k v r).keys ↔ k' ∈ l.keys ∨ k' = k ∨ k' ∈ r.keys := by
  simp [keys, toList]

theorem mem_keys_iff {t : Node α β} {k' : α} :
    k' ∈ t.keys ↔ ∃ p ∈ t.toList, p.1 = k' := by
  simp [keys]

theorem leftmost_eq_none_iff {t : Node α β} : leftmost? t = none ↔ t = nil := by
  induction t with
  | nil => simp [leftmost?]
  | node c l k v r ihl ihr =>
    cases l with
    | nil => simp [leftmost?]
    | node cl a ka va b =>
      have e : leftmost? (node c (node cl a ka va b) k v r) =
          leftmost? (node cl a ka va b) := by
        simp [leftmost?]
      rw [e, ihl]
      simp

theorem rightmost_eq_none_iff {t : Node α β} : rightmost? t = none ↔ t = nil := by
  induction t with
  | nil => simp [rightmost?]
  | node c l k v r ihl ihr =>
    cases r with
    | nil => simp [rightmost?]
    | node cr a ka va b =>
      have e : rightmost? (node c l k v (node cr a ka va b)) =
          rightmost? (node cr a ka va b) := by
        simp [rightmost?]
      rw [e, ihr]
      simp

section OrderedQueries

variable [LinearOrder α]

theorem leftmost_spec {t : Node α β} {p : α × β} (h : Ordered t)
    (hp : leftmost? t = some p) : p ∈ t.toList ∧ ∀ k' ∈ t.keys, p.1 ≤ k' := by
  induction t with
  | nil => simp [leftmost?] at hp
  | node c l k v r ihl ihr =>
    obtain ⟨hlk, hkr, ol, or⟩ := h
    have hlm := all_iff_forall_mem.1 hlk
    have hrm := all_iff_forall_mem.1 hkr
    cases l with
    | nil =>
      have e : leftmost? (node c nil k v r) = some (k, v) := by simp [leftmost?]
      rw [e] at hp
      obtain rfl : (k, v) = p := Option.some_inj.1 hp
      refine ⟨mem_toList_node.2 (Or.inr (Or.inl rfl)), ?_⟩
      intro k' hk'
      rcases mem_keys_node.1 hk' with hk' | rfl | hk'
      · simp [keys] at hk'
      · exact le_refl _
      · obtain ⟨q, hq, rfl⟩ := mem_keys_iff.1 hk'
        exact (hrm q hq).le
    | node cl a ka va b =>
      have e : leftmost? (node c (node cl a ka va b) k v r) =
          leftmost? (node cl a ka va b) := by
        simp [leftmost?]
      rw [e] at hp
      obtain ⟨hmem, hmin⟩ := ihl ol hp
      refine ⟨mem_toList_node.2 (Or.inl hmem), ?_⟩
      have hpk : p.1 < k := hlm p hmem
      intro k' hk'
      rcases mem_keys_node.1 hk' with hk' | rfl | hk'
      · exact hmin k' hk'
      · exact hpk.le
      · obtain ⟨q, hq, rfl⟩ := mem_keys_iff.1 hk'
        exact (hpk.trans (hrm q hq)).le

theorem rightmost_spec {t : Node α β} {p : α × β} (h : Ordered t)
    (hp : rightmost? t = some p) : p ∈ t.toList ∧ ∀ k' ∈ t.keys, k' ≤ p.1 := by
  induction t with
  | nil => simp [rightmost?] at hp
  | node c l k v r ihl ihr =>
    obtain ⟨hlk, hkr, ol, or⟩ := h
    have hlm := all_iff_forall_mem.1 hlk
    have hrm := all_iff_forall_mem.1 hkr
    cases r with
    | nil =>
      have e : rightmost? (node c l k v nil) = some (k, v) := by simp [rightmost?]
      rw [e] at hp
      obtain rfl : (k, v) = p := Option.some_inj.1 hp
      refine ⟨mem_toList_node.2 (Or.inr (Or.inl rfl)), ?_⟩
      intro k' hk'
      rcases mem_keys_node.1 hk' with hk' | rfl | hk'
      · obtain ⟨q, hq, rfl⟩ := mem_keys_iff.1 hk'
        exact (hlm q hq).le
      · exact le_refl _
      · simp [keys] at hk'
    | node cr a ka va b =>
      have e : rightmost? (node c l k v (node cr a ka va b)) =
          rightmost? (node cr a ka va b) := by
        simp [rightmost?]
      rw [e] at hp
      obtain ⟨hmem, hmax⟩ := ihr or hp
      refine ⟨mem_toList_node.2 (Or.inr (Or.inr hmem)), ?_⟩
      have hpk : k < p.1 := hrm p hmem
      intro k' hk'
      rcases mem_keys_node.1 hk' with hk' | rfl | hk'
      · obtain ⟨q, hq, rfl⟩ := mem_keys_iff.1 hk'
        exact ((hlm q hq).trans hpk).le
      · exact hpk.le
      · exact hmax k' hk'

theorem floor_spec {t : Node α β} {k : α} (h : Ordered t) :
    match floor? k t with
    | none => ∀ k' ∈ t.keys, k < k'
    | some p => p ∈ t.toList ∧ p.1 ≤ k ∧ ∀ k' ∈ t.keys, k' ≤ k → k' ≤ p.1 := by
  induction t with
  | nil =>
    intro k' hk'
    simp [keys] at hk'
  | node c l k' v' r ihl ihr =>
    obtain ⟨hlk, hkr, ol, or⟩ := h
    have hlm := all_iff_forall_mem.1 hlk
    have hrm := all_iff_forall_mem.1 hkr
    have ihl' := ihl ol
    have ihr' := ihr or
    by_cases h1 : k < k'
    · have e : floor? k (node c l k' v' r) = floor? k l := by simp [floor?, h1]
      rw [e]
      cases hfl : floor? k l with
      | none =>
        rw [hfl] at ihl'
        intro k'' hk''
        rcases mem_keys_node.1 hk'' with hk'' | rfl | hk''
        · exact ihl' k'' hk''
        · exact h1
        · obtain ⟨q, hq, rfl⟩ := mem_keys_iff.1 hk''
          exact h1.trans (hrm q hq)
      | some p =>
        rw [hfl] at ihl'
        obtain ⟨hmem, hle, hmax⟩ := ihl'
        refine ⟨mem_toList_node.2 (Or.inl hmem), hle, ?_⟩
        intro k'' hk'' hkle
        rcases mem_keys_node.1 hk'' with hk'' | rfl | hk''
        · exact hmax k'' hk'' hkle
        · exact absurd hkle (not_le.2 h1)
        · obtain ⟨q, hq, rfl⟩ := mem_keys_iff.1 hk''
          exact absurd hkle (not_le.2 (h1.trans (hrm q hq)))
    · have hk'k : k' ≤ k := not_lt.1 h1
      have e : floor? k (node c l k' v' r) =
          match floor? k r with
          | some p => some p
          | none => some (k', v') := by
        simp [floor?, h1]
      rw [e]
      cases hfr : floor? k r with
      | some p =>
        rw [hfr] at ihr'
        obtain ⟨hmem, hle, hmax⟩ := ihr'
        have hk'p : k' < p.1 := hrm p hmem
        refine ⟨mem_toList_node.2 (Or.inr (Or.inr hmem)), hle, ?_⟩
        intro k'' hk'' hkle
        rcases mem_keys_node.1 hk'' with hk'' | rfl | hk''
        · obtain ⟨q, hq, rfl⟩ := mem_keys_iff.1 hk''
          exact ((hlm q hq).trans hk'p).le
        · exact hk'p.le
        · exact hmax k'' hk'' hkle
      | none =>
        rw [hfr] at ihr'
        refine ⟨mem_toList_node.2 (Or.inr (Or.inl rfl)), hk'k, ?_⟩
        intro k'' hk'' hkle
        rcases mem_keys_node.1 hk'' with hk'' | rfl | hk''
        · obtain ⟨q, hq, rfl⟩ := mem_keys_iff.1 hk''
          exact (hlm q hq).le
        · exact le_refl k''
        · exact absurd hkle (not_le.2 (ihr' k'' hk''))

theorem ceiling_spec {t : Node α β} {k : α} (h : Ordered t) :
    match ceiling? k t with
    | none => ∀ k' ∈ t.keys, k' < k
    | some p => p ∈ t.toList ∧ k ≤ p.1 ∧ ∀ k' ∈ t.keys, k ≤ k' → p.1 ≤ k' := by
  induction t with
  | nil =>
    intro k' hk'
    simp [keys] at hk'
  | node c l k' v' r ihl ihr =>
    obtain ⟨hlk, hkr, ol, or⟩ := h
    have hlm := all_iff_forall_mem.1 hlk
    have hrm := all_iff_forall_mem.1 hkr
    have ihl' := ihl ol
    have ihr' := ihr or
    by_cases h1 : k' < k
    · have e : ceiling? k (node c l k' v' r) = ceiling? k r := by simp [ceiling?, h1]
      rw [e]
      cases hfr : ceiling? k r with
      | none =>
        rw [hfr] at ihr'
        intro k'' hk''
        rcases mem_keys_node.1 hk'' with hk'' | rfl | hk''
        · obtain ⟨q, hq, rfl⟩ := mem_keys_iff.1 hk''
          exact (hlm q hq).trans h1
        · exact h1
        · exact ihr' k'' hk''
      | some p =>
        rw [hfr] at ihr'
        obtain ⟨hmem, hle, hmin⟩ := ihr'
        refine ⟨mem_toList_node.2 (Or.inr (Or.inr hmem)), hle, ?_⟩
        intro k'' hk'' hkle
        rcases mem_keys_node.1 hk'' with hk'' | rfl | hk''
        · obtain ⟨q, hq, rfl⟩ := mem_keys_iff.1 hk''
          exact absurd hkle (not_le.2 ((hlm q hq).trans h1))
        · exact absurd hkle (not_le.2 h1)
        · exact hmin k'' hk'' hkle
    · have hkk' : k ≤ k' := not_lt.1 h1
      have e : ceiling? k (node c l k' v' r) =
          match ceiling? k l with
          | some p => some p
          | none => some (k', v') := by
        simp [ceiling?, h1]
      rw [e]
      cases hfl : ceiling? k l with
      | some p =>
        rw [hfl] at ihl'
        obtain ⟨hmem, hle, hmin⟩ := ihl'
        have hpk' : p.1 < k' := hlm p hmem
        refine ⟨mem_toList_node.2 (Or.inl hmem), hle, ?_⟩
        intro k'' hk'' hkle
        rcases mem_keys_node.1 hk'' with hk'' | rfl | hk''
        · exact hmin k'' hk'' hkle
        · exact hpk'.le
        · obtain ⟨q, hq, rfl⟩ := mem_keys_iff.1 hk''
          exact (hpk'.trans (hrm q hq)).le
      | none =>
        rw [hfl] at ihl'
        refine ⟨mem_toList_node.2 (Or.inr (Or.inl rfl)), hkk', ?_⟩
        intro k'' hk'' hkle
        rcases mem_keys_node.1 hk'' with hk'' | rfl | hk''
        · exact absurd hkle (not_le.2 (ihl' k'' hk''))
        · exact le_refl k''
        · obtain ⟨q, hq, rfl⟩ := mem_keys_iff.1 hk''
          exact (hrm q hq).le

end OrderedQueries

end Node

end rbt

/-! ## The ordered map facade (`maps/treemap/treemap.go`) -/

namespace treemap

open rbt rbt.Node AssocModel

/-- Translated from `maps/treemap/treemap.go` (`Map` holds the elements in
a red-black tree) together with the spec's data model: the Go facade
delegates to an `rbt.Tree` which owns the root node and an element count
(spec §3 invariant 5: the `size` field equals the exact count of live
nodes, maintained transactionally with every insert/remove); the tree's
two fields are inlined into the facade model. -/
structure Map (α β : Type) where
  tree : rbt.Node α β
  size : Nat

variable {α β : Type}

/-- A freshly instantiated tree map (`NewWith`/`NewWithIntComparator`):
empty tree, size zero. -/
def Map.empty : Map α β := ⟨.nil, 0⟩

section MapOps

variable [LinearOrder α]

/-- Translated from `Map.Put` (treemap.go) forwarding to the engine's Put
(spec §4.1): a tie replaces the value of the existing node in place with
no structural change and no size change, a new key is inserted and the
size incremented. -/
def Map.put (m : Map α β) (k : α) (v : β) : Map α β :=
  match m.tree.search k with
  | some _ => ⟨m.tree.put k v, m.size⟩
  | none => ⟨m.tree.put k v, m.size + 1⟩

/-- Translated from `Map.Get` (treemap.go): the value stored at the key
and a found flag, rendered as an `Option` (`none` = Go's `(nil, false)`,
`some v` = Go's `(v, true)`). -/
def Map.get (m : Map α β) (k : α) : Option β :=
  m.tree.search k

/-- Translated from `Map.Remove` (treemap.go) forwarding to the engine's
Remove (spec §4.1): locate the node by search, fail silently (no-op) when
the key is absent, and decrement the size only after confirming the key
existed. -/
def Map.remove (m : Map α β) (k : α) : Map α β :=
  match m.tree.search k with
  | some _ => ⟨m.tree.remove k, m.size - 1⟩
  | none => m

/-- Translated from `Map.Keys` (treemap.go): all keys in-order. -/
def Map.keys (m : Map α β) : List α := m.tree.keys

/-- Translated from `Map.Values` (treemap.go): all values in-order based
on the keys. -/
def Map.values (m : Map α β) : List β := m.tree.toList.map Prod.snd

/-- Translated from `Map.Empty` (treemap.go): true when the map does not
contain any elements. -/
def Map.isEmpty (m : Map α β) : Bool := m.size == 0

/-- Translated from `Map.Min` (treemap.go): the leftmost node's key/value,
or `none` (Go's `(nil, nil)`) when the map is empty. -/
def Map.min? (m : Map α β) : Option (α × β) := m.tree.leftmost?

/-- Translated from `Map.Max` (treemap.go): the rightmost node's
key/value, or `none` (Go's `(nil, nil)`) when the map is empty. -/
def Map.max? (m : Map α β) : Option (α × β) := m.tree.rightmost?

/-- Translated from `Map.Floor` (treemap.go): the largest key smaller than
or equal to the given key with its value, or `none` (Go's `(nil, nil)`)
when no floor exists. -/
def Map.floor (m : Map α β) (k : α) : Option (α × β) := m.tree.floor? k

/-- Translated from `Map.Ceiling` (treemap.go): the smallest key larger
than or equal to the given key with its value, or `none` (Go's
`(nil, nil)`) when no ceiling exists. -/
def Map.ceiling (m : Map α β) (k : α) : Option (α × β) := m.tree.ceiling? k

/-- Translated from `Map.Clear` (treemap.go): removes all elements. -/
def Map.clear (_ : Map α β) : Map α β := Map.empty

/-- The map states reachable through the public interface by any sequence
of `Put`/`Remove` operations on a fresh map. -/
inductive Map.Reachable : Map α β → Prop where
  | empty : Map.Reachable Map.empty
  | put {m : Map α β} (k : α) (v : β) : Map.Reachable m → Map.Reachable (m.put k v)
  | remove {m : Map α β} (k : α) : Map.Reachable m → Map.Reachable (m.remove k)

/-- The facade invariant: the backing tree is an ordered binary search
tree satisfying the red-black balance invariants with a black root, and
the size field counts the live nodes exactly. -/
def Map.WF (m : Map α β) : Prop :=
  m.tree.Ordered ∧ (∃ n, m.tree.Balanced .black n) ∧ m.size = m.tree.toList.length

theorem Map.wf_empty : (Map.empty : Map α β).WF :=
  ⟨trivial, ⟨0, .nil⟩, rfl⟩

theorem Map.WF.put {m : Map α β} (h : m.WF) (k : α) (v : β) : (m.put k v).WF := by
  obtain ⟨ho, ⟨n, hb⟩, hs⟩ := h
  have hlen := @length_listPut α β _ k v _ (ordered_iff_ksorted.1 ho)
  cases hsk : m.tree.search k with
  | some w =>
    have hsk' : listLookup k m.tree.toList = some w := by
      rw [← search_eq_listLookup ho]; exact hsk
    have e : m.put k v = ⟨m.tree.put k v, m.size⟩ := by
      simp only [Map.put, hsk]
    rw [e]
    refine ⟨ordered_put ho, balanced_put k v hb, ?_⟩
    show m.size = (m.tree.put k v).toList.length
    rw [toList_put ho, hlen, hsk']
    exact hs
  | none =>
    have hsk' : listLookup k m.tree.toList = none := by
      rw [← search_eq_listLookup ho]; exact hsk
    have e : m.put k v = ⟨m.tree.put k v, m.size + 1⟩ := by
      simp only [Map.put, hsk]
    rw [e]
    refine ⟨ordered_put ho, balanced_put k v hb, ?_⟩
    show m.size + 1 = (m.tree.put k v).toList.length
    rw [toList_put ho, hlen, hsk', hs]

theorem Map.WF.remove {m : Map α β} (h : m.WF) (k : α) : (m.remove k).WF := by
  obtain ⟨ho, ⟨n, hb⟩, hs⟩ := h
  have hlen := @length_listErase α β _ k _ (ordered_iff_ksorted.1 ho)
  cases hsk : m.tree.search k with
  | some w =>
    have hsk' : listLookup k m.tree.toList = some w := by
      rw [← search_eq_listLookup ho]; exact hsk
    have e : m.remove k = ⟨m.tree.remove k, m.size - 1⟩ := by
      simp only [Map.remove, hsk]
    rw [e]
    refine ⟨ordered_remove ho, balanced_remove k hb, ?_⟩
    show m.size - 1 = (m.tree.remove k).toList.length
    rw [toList_remove ho, hlen, hsk', hs]
  | none =>
    have e : m.remove k = m := by
      simp only [Map.remove, hsk]
    rw [e]
    exact ⟨ho, ⟨n, hb⟩, hs⟩

theorem Map.reachable_wf {m : Map α β} (h : m.Reachable) : m.WF := by
  induction h with
  | empty => exact wf_empty
  | put k v hm ih => exact ih.put k v
  | remove k hm ih => exact ih.remove k

end MapOps

end treemap

/-! ## The insertion-ordered hash map (`maps/linkedhashmap`, `src/unnamed/part_002`) -/

namespace linkedhashmap

variable {α β : Type} [DecidableEq α]

/-- Translated from `linkedhashmap.Map` (src/unnamed/part_002): a hash
table holding the values and a doubly-linked list recording key insertion
order.  The Go hash table `map[interface{}]interface{}` is modelled as an
association list with at most one entry per key, the ordering list as a
plain list of keys.  Go values may be `nil`, so values are `Option β`
(`none` = `nil`). -/
structure Map (α β : Type) where
  table : List (α × Option β)
  ordering : List α

/-- Translated from `linkedhashmap.New`. -/
def Map.empty : Map α β := ⟨[], []⟩

/-- Go map read `m.table[key]`: `some` the stored value when the key is
present, `none` when absent. -/
def tableGet (t : List (α × Option β)) (k : α) : Option (Option β) :=
  match t with
  | [] => none
  | p :: ps => if p.1 = k then some p.2 else tableGet ps k

/-- Go map write `m.table[key] = value`. -/
def tableSet (t : List (α × Option β)) (k : α) (v : Option β) : List (α × Option β) :=
  match t with
  | [] => [(k, v)]
  | p :: ps => if p.1 = k then (k, v) :: ps else p :: tableSet ps k v

/-- Go `_, contains := m.table[key]`. -/
def tableContains (t : List (α × Option β)) (k : α) : Bool :=
  (tableGet t k).isSome

/-- Translated from `Map.Put` (part_002 lines 44-49): when the table does
not contain the key, append the key to the ordering list; then store the
value in the table. -/
def Map.put (m : Map α β) (k : α) (v : Option β) : Map α β :=
  ⟨tableSet m.table k v,
   if tableContains m.table k then m.ordering else m.ordering ++ [k]⟩

/-- Translated from `Map.Get` (part_002 lines 54-58), faithfully including
its handling of the zero value: `value = m.table[key]` (which is Go's
`nil`, i.e. `none`, when the key is absent) and `found = value != nil`. -/
def Map.get (m : Map α β) (k : α) : Option β × Bool :=
  let value : Option β :=
    match tableGet m.table k with
    | some v => v
    | none => none
  (value, value.isSome)

/-- Translated from `Map.Size` (part_002 lines 77-79). -/
def Map.size (m : Map α β) : Nat := m.ordering.length

/-- Translated from `Map.Keys` (part_002 lines 83-85): the keys in
insertion order. -/
def Map.keys (m : Map α β) : List α := m.ordering

end linkedhashmap

/-! ## The array-backed list (`lists/arraylist/serialization.go`) -/

namespace arraylist

variable {β : Type} [DecidableEq β]

/-- Translated from `arraylist.List` (renamed — `List` would shadow Lean's
list type): the backing slice `elements` (its length is the capacity; a
slot holds `none` for Go's `nil`) and the live element count `size`.
Go element values may be `nil`, so elements are `Option β`. -/
structure ArrayList (β : Type) where
  elements : List (Option β)
  size : Nat

/-- A zero-valued `&List{}`. -/
def ArrayList.empty : ArrayList β := ⟨[], 0⟩

/-- Translated from serialization.go line 64: `growthFactor = 2.0`
(growth by 100%). -/
def growthFactor : Nat := 2

/-- Translated from `List.resize` (serialization.go lines 266-270):
allocate a slice of the requested capacity and copy the old elements over;
fresh slots hold Go's zero value `nil`. -/
def ArrayList.resize (l : ArrayList β) (capacity : Nat) : ArrayList β :=
  ⟨l.elements.take capacity ++ List.replicate (capacity - l.elements.length) none, l.size⟩

/-- Translated from `List.growBy` (serialization.go lines 274-281): when
`size + n` reaches the current capacity, resize to
`int(growthFactor * float32(currentCapacity + n))`; the float32
arithmetic is exact at these magnitudes, so it is `2 * (capacity + n)`. -/
def ArrayList.growBy (l : ArrayList β) (n : Nat) : ArrayList β :=
  let currentCapacity := l.elements.length
  if l.size + n ≥ currentCapacity then
    l.resize (growthFactor * (currentCapacity + n))
  else l

/-- Translated from `List.Add` (serialization.go lines 80-87): grow if
needed, then write each value at index `size` and increment `size`. -/
def ArrayList.add (l : ArrayList β) (values : List (Option β)) : ArrayList β :=
  values.foldl (fun acc v => ⟨acc.elements.set acc.size v, acc.size + 1⟩)
    (l.growBy values.length)

/-- Translated from `arraylist.New` (serialization.go lines 70-76):
instantiate a list and add the passed values, if any. -/
def ArrayList.new (values : List (Option β)) : ArrayList β :=
  if values.length > 0 then ArrayList.empty.add values else ArrayList.empty

/-- Translated from `List.Contains` (serialization.go lines 130-145): for
each search value, scan the whole backing slice `list.elements` — not just
the live prefix `list.elements[:list.size]` — for an equal element
(`range list.elements` in the source iterates the full slice); true when
every search value was found, and true when no search values are given. -/
def ArrayList.contains (l : ArrayList β) (values : List (Option β)) : Bool :=
  values.all fun searchValue =>
    l.elements.any fun element => decide (element = searchValue)

/-- Translated from `List.withinRange` (serialization.go lines 261-263):
whether the index lies within the live bounds of the list. -/
def ArrayList.withinRange (l : ArrayList β) (index : Int) : Bool :=
  index ≥ 0 && index < l.size

/-- Translated from `List.Values` (serialization.go lines 149-153): a copy
of the live elements `list.elements[:list.size]`. -/
def ArrayList.values (l : ArrayList β) : List (Option β) :=
  l.elements.take l.size

end arraylist

namespace rbt

namespace Node

variable {α β : Type}

theorem toList_eq_nil_iff {t : Node α β} : t.toList = [] ↔ t = nil := by
  cases t with
  | nil => simp
  | node c l k v r => simp [toList]

end Node

end rbt

namespace treemap

open rbt rbt.Node AssocModel

variable {α β : Type} [LinearOrder α]

theorem Map.put_tree (m : Map α β) (k : α) (v : β) :
    (m.put k v).tree = m.tree.put k v := by
  simp only [Map.put]
  cases m.tree.search k <;> rfl

theorem Map.put_of_found {m : Map α β} {k : α} {w : β} (h : m.tree.search k = some w)
    (v : β) : m.put k v = ⟨m.tree.put k v, m.size⟩ := by
  simp only [Map.put, h]

theorem Map.get_put_self {m : Map α β} (h : m.WF) (k : α) (v : β) :
    (m.put k v).get k = some v := by
  rw [Map.get, Map.put_tree]
  exact search_put_self h.1

theorem Map.get_remove_self {m : Map α β} (h : m.WF) (k : α) :
    (m.remove k).get k = none := by
  cases hsk : m.tree.search k with
  | none =>
    have e : m.remove k = m := by simp only [Map.remove, hsk]
    rw [e, Map.get]
    exact hsk
  | some w =>
    have e : m.remove k = ⟨m.tree.remove k, m.size - 1⟩ := by simp only [Map.remove, hsk]
    rw [e, Map.get]
    exact search_remove_self h.1

/-- The floor contract (spec §4.1 Floor, §8): the returned pair, when any,
is a stored pair whose key is the largest stored key smaller than or equal
to the queried key; otherwise every stored key is larger than the queried
key. -/
def Map.FloorSpec (m : Map α β) (k : α) : Prop :=
  match m.floor k with
  | none => ∀ k' ∈ m.keys, k < k'
  | some p =>
      p.1 ∈ m.keys ∧ m.get p.1 = some p.2 ∧ p.1 ≤ k ∧
        ∀ k' ∈ m.keys, k' ≤ k → k' ≤ p.1

/-- The ceiling contract (spec §4.1 Ceiling, §8): mirror image of the
floor contract. -/
def Map.CeilingSpec (m : Map α β) (k : α) : Prop :=
  match m.ceiling k with
  | none => ∀ k' ∈ m.keys, k' < k
  | some p =>
      p.1 ∈ m.keys ∧ m.get p.1 = some p.2 ∧ k ≤ p.1 ∧
        ∀ k' ∈ m.keys, k ≤ k' → p.1 ≤ k'

theorem Map.floorSpec_of_wf {m : Map α β} (h : m.WF) (k : α) : m.FloorSpec k := by
  have hf := @floor_spec α β _ m.tree k h.1
  cases hfk : m.tree.floor? k with
  | none =>
    rw [hfk] at hf
    simp only [Map.FloorSpec, Map.floor, hfk]
    exact hf
  | some p =>
    rw [hfk] at hf
    obtain ⟨hmem, hle, hmax⟩ := hf
    simp only [Map.FloorSpec, Map.floor, hfk]
    refine ⟨keys_mem_of_toList hmem, ?_, hle, hmax⟩
    rw [Map.get, search_eq_listLookup h.1]
    exact listLookup_of_mem (ordered_iff_ksorted.1 h.1) hmem

theorem Map.ceilingSpec_of_wf {m : Map α β} (h : m.WF) (k : α) : m.CeilingSpec k := by
  have hf := @ceiling_spec α β _ m.tree k h.1
  cases hfk : m.tree.ceiling? k with
  | none =>
    rw [hfk] at hf
    simp only [Map.CeilingSpec, Map.ceiling, hfk]
    exact hf
  | some p =>
    rw [hfk] at hf
    obtain ⟨hmem, hle, hmin⟩ := hf
    simp only [Map.CeilingSpec, Map.ceiling, hfk]
    refine ⟨keys_mem_of_toList hmem, ?_, hle, hmin⟩
    rw [Map.get, search_eq_listLookup h.1]
    exact listLookup_of_mem (ordered_iff_ksorted.1 h.1) hmem

end treemap

/-! ## The claims -/

/-- A reachable map built by puts and a remove, used as a concrete
instance for the claims over reachable states. -/
def witnessMap : treemap.Map Int Int :=
  ((treemap.Map.empty.put 3 30).put 1 10).remove 3

/-- A reachable map built by puts only, used where a hypothesis has to be
checked by evaluation. -/
def putOnlyMap : treemap.Map Int Int :=
  (treemap.Map.empty.put 1 10).put 3 30

/-- The map containing exactly the keys {1, 3, 7, 10} of the spec's
floor/ceiling test (§8). -/
def exampleMap : treemap.Map Int Int :=
  (((treemap.Map.empty.put 1 100).put 3 300).put 7 700).put 10 1000

/-- C1: for every sequence of Put/Remove operations on the ordered map
(with a comparator that is a strict total order, modelled by the
`LinearOrder`), the in-order traversal exposed by `Keys()` yields the live
keys in strictly ascending order under the comparator, with no duplicate
keys. -/
theorem C1_inorder_keys_strictly_ascending {α β : Type} [LinearOrder α]
    (m : treemap.Map α β) (h : m.Reachable) :
    List.Sorted (· < ·) m.keys ∧ m.keys.Nodup := by
  have hw := treemap.Map.reachable_wf h
  have hk : AssocModel.KSorted m.tree.toList := (rbt.Node.ordered_iff_ksorted).1 hw.1
  have hs : List.Sorted (· < ·) m.keys := List.pairwise_map.2 hk
  exact ⟨hs, hs.nodup⟩

/-- C1 at a concrete reachable map. -/
theorem C1_witness :
    witnessMap.Reachable ∧
      (List.Sorted (· < ·) witnessMap.keys ∧ witnessMap.keys.Nodup) :=
  ⟨.remove 3 (.put 1 10 (.put 3 30 .empty)),
   C1_inorder_keys_strictly_ascending witnessMap
     (.remove 3 (.put 1 10 (.put 3 30 .empty)))⟩

/-- C2: for every ordered-map state reachable by Put/Remove sequences, the
backing tree satisfies the red-black invariants — the root is black (or
the tree is empty), no red node has a red child, and every path from a
given node down to a conceptual black nil leaf contains the same number of
black nodes (stated both for root-to-leaf path counts and recursively at
every node). -/
theorem C2_red_black_invariants {α β : Type} [LinearOrder α]
    (m : treemap.Map α β) (h : m.Reachable) :
    m.tree.rootIsBlack = true ∧ m.tree.noRedRed = true ∧
      (∃ bh, ∀ c ∈ m.tree.pathBlackCounts, c = bh) ∧ m.tree.BlackHeightInv := by
  obtain ⟨ho, ⟨n, hb⟩, hs⟩ := treemap.Map.reachable_wf h
  exact ⟨rbt.Node.rootIsBlack_of_balanced hb, rbt.Node.noRedRed_of_balanced hb,
    ⟨n + 1, rbt.Node.pathBlackCounts_const hb⟩, rbt.Node.blackHeightInv_of_balanced hb⟩

/-- C2 at a concrete reachable map. -/
theorem C2_witness :
    witnessMap.Reachable ∧
      (witnessMap.tree.rootIsBlack = true ∧ witnessMap.tree.noRedRed = true ∧
        (∃ bh, ∀ c ∈ witnessMap.tree.pathBlackCounts, c = bh) ∧
        witnessMap.tree.BlackHeightInv) :=
  ⟨.remove 3 (.put 1 10 (.put 3 30 .empty)),
   C2_red_black_invariants witnessMap (.remove 3 (.put 1 10 (.put 3 30 .empty)))⟩

/-- C3: for every reachable ordered-map state, key and value, Put followed
by Get on the same key returns the value with found = true, and Remove
followed by Get on the same key returns found = false. -/
theorem C3_put_get_remove_round_trip {α β : Type} [LinearOrder α]
    (m : treemap.Map α β) (h : m.Reachable) (k : α) (v : β) :
    (m.put k v).get k = some v ∧ (m.remove k).get k = none := by
  have hw := treemap.Map.reachable_wf h
  exact ⟨treemap.Map.get_put_self hw k v, treemap.Map.get_remove_self hw k⟩

/-- C3 at a concrete reachable map, key and value. -/
theorem C3_witness :
    witnessMap.Reachable ∧
      ((witnessMap.put 7 70).get 7 = some 70 ∧ (witnessMap.remove 7).get 7 = none) :=
  ⟨.remove 3 (.put 1 10 (.put 3 30 .empty)),
   C3_put_get_remove_round_trip witnessMap
     (.remove 3 (.put 1 10 (.put 3 30 .empty))) 7 70⟩

/-- C4: for every reachable ordered-map state, `Size()` equals the number
of keys yielded by a full iteration (the length of `Keys()`). -/
theorem C4_size_equals_iteration_length {α β : Type} [LinearOrder α]
    (m : treemap.Map α β) (h : m.Reachable) :
    m.size = m.keys.length := by
  have hw := treemap.Map.reachable_wf h
  rw [hw.2.2]
  simp [treemap.Map.keys, rbt.Node.keys]

/-- C4 at a concrete reachable map. -/
theorem C4_witness :
    witnessMap.Reachable ∧ witnessMap.size = witnessMap.keys.length :=
  ⟨.remove 3 (.put 1 10 (.put 3 30 .empty)),
   C4_size_equals_iteration_length witnessMap
     (.remove 3 (.put 1 10 (.put 3 30 .empty)))⟩

/-- C5: on the integer-comparator map containing exactly the keys
{1, 3, 7, 10}: Floor(5) = key 3, Ceiling(5) = key 7, Floor(0) and
Ceiling(11) are not found, Floor(7) = key 7 and Ceiling(3) = key 3 (both
inclusive); and in general, on every reachable map, Floor returns the
largest stored key less than or equal to the query and Ceiling the
smallest stored key greater than or equal to it. -/
theorem C5_floor_ceiling {α β : Type} [LinearOrder α]
    (m : treemap.Map α β) (h : m.Reachable) (k : α) :
    ((exampleMap.floor 5).map Prod.fst = some 3 ∧
      (exampleMap.ceiling 5).map Prod.fst = some 7 ∧
      exampleMap.floor 0 = none ∧
      exampleMap.ceiling 11 = none ∧
      (exampleMap.floor 7).map Prod.fst = some 7 ∧
      (exampleMap.ceiling 3).map Prod.fst = some 3) ∧
    m.FloorSpec k ∧ m.CeilingSpec k := by
  have hw := treemap.Map.reachable_wf h
  exact ⟨by decide,
    treemap.Map.floorSpec_of_wf hw k, treemap.Map.ceilingSpec_of_wf hw k⟩

/-- C5 at a concrete reachable map and query key. -/
theorem C5_witness :
    exampleMap.Reachable ∧
      (((exampleMap.floor 5).map Prod.fst = some 3 ∧
        (exampleMap.ceiling 5).map Prod.fst = some 7 ∧
        exampleMap.floor 0 = none ∧
        exampleMap.ceiling 11 = none ∧
        (exampleMap.floor 7).map Prod.fst = some 7 ∧
        (exampleMap.ceiling 3).map Prod.fst = some 3) ∧
      exampleMap.FloorSpec 5 ∧ exampleMap.CeilingSpec 5) :=
  ⟨.put 10 1000 (.put 7 700 (.put 3 300 (.put 1 100 .empty))),
   C5_floor_ceiling exampleMap
     (.put 10 1000 (.put 7 700 (.put 3 300 (.put 1 100 .empty)))) 5⟩

/-- C6: on every reachable map, putting an existing key again replaces the
value in place — the size stays what it was after the first Put, and Get
then returns the second value. -/
theorem C6_duplicate_put_replaces_in_place {α β : Type} [LinearOrder α]
    (m : treemap.Map α β) (h : m.Reachable) (k : α) (v₁ v₂ : β) :
    ((m.put k v₁).put k v₂).size = (m.put k v₁).size ∧
      ((m.put k v₁).put k v₂).get k = some v₂ := by
  have hw := treemap.Map.reachable_wf h
  have hw1 : (m.put k v₁).WF := hw.put k v₁
  have hg : (m.put k v₁).tree.search k = some v₁ :=
    treemap.Map.get_put_self hw k v₁
  constructor
  · rw [treemap.Map.put_of_found hg v₂]
  · exact treemap.Map.get_put_self hw1 k v₂

/-- C6 at a concrete reachable map, key and values. -/
theorem C6_witness :
    witnessMap.Reachable ∧
      (((witnessMap.put 1 7).put 1 8).size = (witnessMap.put 1 7).size ∧
        ((witnessMap.put 1 7).put 1 8).get 1 = some 8) :=
  ⟨.remove 3 (.put 1 10 (.put 3 30 .empty)),
   C6_duplicate_put_replaces_in_place witnessMap
     (.remove 3 (.put 1 10 (.put 3 30 .empty))) 1 7 8⟩

/-- C7: on every reachable map, removing an absent key is a silent no-op —
it returns normally and leaves Size, Keys, Values and Get on every key
exactly unchanged. -/
theorem C7_remove_absent_is_noop {α β : Type} [LinearOrder α]
    (m : treemap.Map α β) (_h : m.Reachable) (k : α) (hk : m.get k = none) :
    (m.remove k).size = m.size ∧ (m.remove k).keys = m.keys ∧
      (m.remove k).values = m.values ∧ ∀ k', (m.remove k).get k' = m.get k' := by
  have e : m.remove k = m := by
    simp only [treemap.Map.remove]
    rw [show m.tree.search k = none from hk]
  rw [e]
  exact ⟨rfl, rfl, rfl, fun _ => rfl⟩

/-- C7 at a concrete reachable map and absent key. -/
theorem C7_witness :
    putOnlyMap.Reachable ∧ putOnlyMap.get 7 = none ∧
      ((putOnlyMap.remove 7).size = putOnlyMap.size ∧
        (putOnlyMap.remove 7).keys = putOnlyMap.keys ∧
        (putOnlyMap.remove 7).values = putOnlyMap.values ∧
        ∀ k', (putOnlyMap.remove 7).get k' = putOnlyMap.get k') :=
  ⟨.put 3 30 (.put 1 10 .empty), by decide,
   C7_remove_absent_is_noop putOnlyMap (.put 3 30 (.put 1 10 .empty)) 7 (by decide)⟩

/-- C8: the claim asks that a present key always reports found = true even
when the stored value is nil; the linked hash map's `Get`
(src/unnamed/part_002 lines 54-58) computes `found = value != nil` and so
reports found = false for the present key 1 holding a nil value, while the
key is in the table, in `Keys()` and counted by `Size()` — contradicting
`Get`'s own documentation ("Second return parameter is true if key was
found").  On an absent key it does return found = false as claimed. -/
theorem C8_get_nil_value_reported_not_found :
    linkedhashmap.tableContains (linkedhashmap.Map.empty.put 1 none :
      linkedhashmap.Map Int Int).table 1 = true ∧
    (linkedhashmap.Map.empty.put 1 none : linkedhashmap.Map Int Int).keys = [1] ∧
    (linkedhashmap.Map.empty.put 1 none : linkedhashmap.Map Int Int).size = 1 ∧
    (linkedhashmap.Map.empty.put 1 none : linkedhashmap.Map Int Int).get 1 =
      (none, false) ∧
    (linkedhashmap.Map.empty : linkedhashmap.Map Int Int).get 1 = (none, false) := by
  decide

/-- C9: when the ordered map is empty, Min and Max both return "not
found"; when it is non-empty, Min returns the smallest stored key with its
value and Max the largest. -/
theorem C9_min_max {α β : Type} [LinearOrder α]
    (m : treemap.Map α β) (h : m.Reachable) :
    (m.size = 0 → m.min? = none ∧ m.max? = none) ∧
    (m.size ≠ 0 → ∃ p q, m.min? = some p ∧ m.max? = some q ∧
      p.1 ∈ m.keys ∧ m.get p.1 = some p.2 ∧ (∀ k' ∈ m.keys, p.1 ≤ k') ∧
      q.1 ∈ m.keys ∧ m.get q.1 = some q.2 ∧ (∀ k' ∈ m.keys, k' ≤ q.1)) := by
  obtain ⟨ho, hb, hs⟩ := treemap.Map.reachable_wf h
  have hnil : m.size = 0 ↔ m.tree = .nil := by
    rw [hs, List.length_eq_zero, rbt.Node.toList_eq_nil_iff]
  constructor
  · intro h0
    have ht := hnil.1 h0
    constructor
    · rw [treemap.Map.min?, rbt.Node.leftmost_eq_none_iff, ht]
    · rw [treemap.Map.max?, rbt.Node.rightmost_eq_none_iff, ht]
  · intro h0
    have ht : m.tree ≠ .nil := fun e => h0 (hnil.2 e)
    have hm : m.tree.leftmost? ≠ none := fun e => ht (rbt.Node.leftmost_eq_none_iff.1 e)
    have hM : m.tree.rightmost? ≠ none := fun e => ht (rbt.Node.rightmost_eq_none_iff.1 e)
    obtain ⟨p, hp⟩ := Option.ne_none_iff_exists'.1 hm
    obtain ⟨q, hq⟩ := Option.ne_none_iff_exists'.1 hM
    obtain ⟨hpm, hpmin⟩ := rbt.Node.leftmost_spec ho hp
    obtain ⟨hqm, hqmax⟩ := rbt.Node.rightmost_spec ho hq
    refine ⟨p, q, hp, hq, rbt.Node.keys_mem_of_toList hpm, ?_, hpmin,
      rbt.Node.keys_mem_of_toList hqm, ?_, hqmax⟩
    · rw [treemap.Map.get, rbt.Node.search_eq_listLookup ho]
      exact AssocModel.listLookup_of_mem ((rbt.Node.ordered_iff_ksorted).1 ho) hpm
    · rw [treemap.Map.get, rbt.Node.search_eq_listLookup ho]
      exact AssocModel.listLookup_of_mem ((rbt.Node.ordered_iff_ksorted).1 ho) hqm

/-- C9 at a concrete reachable map. -/
theorem C9_witness :
    witnessMap.Reachable ∧
      ((witnessMap.size = 0 → witnessMap.min? = none ∧ witnessMap.max? = none) ∧
       (witnessMap.size ≠ 0 → ∃ p q, witnessMap.min? = some p ∧ witnessMap.max? = some q ∧
          p.1 ∈ witnessMap.keys ∧ witnessMap.get p.1 = some p.2 ∧
          (∀ k' ∈ witnessMap.keys, p.1 ≤ k') ∧
          q.1 ∈ witnessMap.keys ∧ witnessMap.get q.1 = some q.2 ∧
          (∀ k' ∈ witnessMap.keys, k' ≤ q.1))) :=
  ⟨.remove 3 (.put 1 10 (.put 3 30 .empty)),
   C9_min_max witnessMap (.remove 3 (.put 1 10 (.put 3 30 .empty)))⟩

/-- C10: the claim asks `Contains` to return true only for values equal to
a live element at indices 0..Size()-1 and in particular `Contains(nil)` to
be false on a list whose live elements are all non-nil; the code
(serialization.go lines 130-145) ranges over the whole backing slice, so
on `New(1)` — whose backing slice is `[1, nil]` with capacity 2 and
size 1 — `Contains(nil)` finds the nil spare slot and returns true,
contradicting the claim and `Contains`'s own documentation ("checks if
elements (one or more) are present in the list"; the list's live elements
per `Values()` are `[1]`). -/
theorem C10_contains_scans_spare_capacity :
    (arraylist.ArrayList.new [some 1] : arraylist.ArrayList Int).size = 1 ∧
    (arraylist.ArrayList.new [some 1] : arraylist.ArrayList Int).values = [some 1] ∧
    (arraylist.ArrayList.new [some 1] : arraylist.ArrayList Int).elements =
      [some 1, none] ∧
    (arraylist.ArrayList.new [some 1] : arraylist.ArrayList Int).contains [none] = true := by
  decide
